import Mathlib

/-!
# Pipeline editor: graph validation, grid layout and edit operations

A shallow embedding of `src/App.jsx`: the pure functions `validateDAG` and
`getLayoutedElements`, and the edit callbacks of the `PipelineEditor` component
(`onConnect`, `addNode`, `deleteSelected`, `onEdgeClick`, `onLayout`, `clearAll`)
as functions on an explicit editor state.

JavaScript features the code relies on are modelled explicitly:

* `Set` objects are duplicate-free lists in insertion order;
* the plain object `graph = {}` used as adjacency map is an ordinary object with
  own properties and a prototype chain, so that reading, writing and enumerating
  keys behave as in JavaScript (in particular for the key `"__proto__"`);
* an uncaught `TypeError` is an explicit outcome of a computation.
-/

namespace PipelineEditor

/-! ## Data model -/

/-- A 2-D coordinate. JavaScript numbers that occur as coordinates are finite
doubles, all of which are rationals. -/
structure Position where
  x : ℚ
  y : ℚ
deriving DecidableEq

/-- A node of the editor: the fields that `App.jsx` reads or writes
(`data.label` is flattened to `label`). -/
structure Node where
  id : String
  type : String
  position : Position
  label : String
  selected : Bool
deriving DecidableEq

/-- An edge of the editor. The presentation attributes of `defaultEdgeOptions`
(`animated`, `markerEnd`, `style`) are constants and are left out. -/
structure Edge where
  id : String
  source : String
  target : String
  selected : Bool
deriving DecidableEq

/-- Outcome of running a piece of JavaScript: a normal completion with a value,
or an uncaught `TypeError`. `outOfFuel` is an artefact of the embedding: the
recursion of `dfs` is bounded by a budget, and `outOfFuel` reports that the
budget was too small (`validateDAG_ne_outOfFuel` shows it never is). Resource
limits of an engine (depth of the call stack, memory) are not modelled. -/
inductive Completion (α : Type) where
  | ok (value : α)
  | typeError
  | outOfFuel
deriving DecidableEq

/-- Sequencing of computations: an abrupt completion is propagated. -/
def Completion.bind {α β : Type} : Completion α → (α → Completion β) → Completion β
  | .ok a, f => f a
  | .typeError, _ => .typeError
  | .outOfFuel, _ => .outOfFuel

/-! ## JavaScript `Set` of strings -/

/-- `s.add(x)`: a set keeps one copy of each element, in insertion order. -/
def setAdd (s : List String) (x : String) : List String :=
  if x ∈ s then s else s ++ [x]

/-- `s.delete(x)`. -/
def setDelete (s : List String) (x : String) : List String :=
  s.filter (fun y => y ≠ x)

/-- `s.has(x)`. -/
def setHas (s : List String) (x : String) : Bool :=
  decide (x ∈ s)

/-! ## The plain object `graph` -/

/-- Values that reading a property of `graph` can produce. -/
inductive JSValue where
  /-- the property is absent on the object and on its prototype chain -/
  | undefined
  /-- an array of strings -/
  | array (elems : List String)
  /-- a string (an element of an inherited array) -/
  | string (s : String)
  /-- a number (the `length` of an inherited array) -/
  | number (n : Nat)
  /-- a function or a non-array object inherited from a built-in prototype:
  truthy, not iterable, without a `push` method -/
  | object
deriving DecidableEq

/-- JavaScript truthiness, as used by `if (graph[edge.source])`. -/
def JSValue.truthy : JSValue → Bool
  | .undefined => false
  | .array _ => true
  | .string s => decide (s ≠ "")
  | .number n => decide (n ≠ 0)
  | .object => true

/-- The values produced by `for (const neighbor of v)`, or `none` when `v` is
not iterable (a `TypeError`). A string iterates over its code points. -/
def JSValue.iterate : JSValue → Option (List String)
  | .array xs => some xs
  | .string s => some (s.toList.map String.singleton)
  | _ => none

/-- String-keyed properties of `Object.prototype`. -/
def objectPrototypeKeys : List String :=
  ["constructor", "__defineGetter__", "__defineSetter__", "hasOwnProperty",
   "__lookupGetter__", "__lookupSetter__", "isPrototypeOf", "propertyIsEnumerable",
   "toString", "valueOf", "__proto__", "toLocaleString"]

/-- String-keyed properties of `Array.prototype` other than `length`
(ECMAScript 2023). -/
def arrayPrototypeKeys : List String :=
  ["constructor", "at", "concat", "copyWithin", "fill", "find", "findIndex",
   "findLast", "findLastIndex", "lastIndexOf", "pop", "push", "reverse", "shift",
   "unshift", "slice", "sort", "splice", "includes", "indexOf", "join", "keys",
   "entries", "values", "forEach", "filter", "flat", "flatMap", "map", "every",
   "some", "reduce", "reduceRight", "toLocaleString", "toString", "toReversed",
   "toSorted", "toSpliced", "with"]

/-- The number denoted by a string of decimal digits. -/
def decimalValue (cs : List Char) : Nat :=
  cs.foldl (fun acc c => acc * 10 + (c.toNat - 48)) 0

/-- The array index denoted by a property key, if the key is one: the canonical
decimal numeral of a number below `2^32 - 1`. -/
def arrayIndex? (k : String) : Option Nat :=
  let n := decimalValue k.toList
  if toString n = k ∧ n < 4294967295 then some n else none

/-- The object `graph`: its own properties (every one holds an array of
strings) in creation order, and its prototype. `proto = none` is the initial
prototype `Object.prototype`; `proto = some p` is the array `p` that an
assignment to the key `"__proto__"` installed as prototype. -/
structure GraphObject where
  own : List (String × List String)
  proto : Option (List String)
deriving DecidableEq

/-- The object literal `{}`. -/
def GraphObject.empty : GraphObject := ⟨[], none⟩

/-- The assignment `graph[k] = []`. For `k = "__proto__"` it runs the setter
inherited from `Object.prototype`, which makes the new array the prototype of
`graph` and creates no own property; for every other key it creates the own
property or overwrites its value in place. -/
def GraphObject.assignEmpty (g : GraphObject) (k : String) : GraphObject :=
  if k = "__proto__" then { g with proto := some [] }
  else if (g.own.lookup k).isSome then
    { g with own := g.own.map (fun kv => if kv.1 = k then (kv.1, []) else kv) }
  else { g with own := g.own ++ [(k, [])] }

/-- The property read `graph[k]`: an own property, else the property found on
the prototype chain. -/
def GraphObject.get (g : GraphObject) (k : String) : JSValue :=
  match g.own.lookup k with
  | some xs => .array xs
  | none =>
    match g.proto with
    | none => if k ∈ objectPrototypeKeys then .object else .undefined
    | some p =>
      if k = "__proto__" then .array p
      else if k = "length" then .number p.length
      else
        match (arrayIndex? k).bind (fun i => p.get? i) with
        | some s => .string s
        | none =>
          if k ∈ arrayPrototypeKeys ∨ k ∈ objectPrototypeKeys then .object else .undefined

/-- The call `graph[k].push(target)`: appends to the array that `graph[k]`
denotes; a value that is not an array has no `push` method and the call throws. -/
def GraphObject.push (g : GraphObject) (k target : String) : Completion GraphObject :=
  if (g.own.lookup k).isSome then
    .ok { g with own := g.own.map (fun kv => if kv.1 = k then (kv.1, kv.2 ++ [target]) else kv) }
  else
    match g.proto with
    | some p => if k = "__proto__" then .ok { g with proto := some (p ++ [target]) } else .typeError
    | none => .typeError

/-- `Object.keys(graph)`: the own property names, array indices first in
ascending numeric order, then the other keys in creation order. -/
def GraphObject.keys (g : GraphObject) : List String :=
  let ks := g.own.map Prod.fst
  ((ks.filterMap arrayIndex?).insertionSort (fun a b => a ≤ b)).map toString
    ++ ks.filter (fun k => (arrayIndex? k).isNone)

/-! ## `validateDAG` -/

/-- The result object `{ isValid, errors }` of `validateDAG`. -/
structure ValidationResult where
  isValid : Bool
  errors : List String
deriving DecidableEq

/-- The set `connectedNodes` after the `edges.forEach` of `validateDAG`. -/
def connectedNodes (edges : List Edge) : List String :=
  edges.foldl (fun s e => setAdd (setAdd s e.source) e.target) []

/-- The array `unconnectedNodes`. -/
def unconnectedNodes (nodes : List Node) (edges : List Edge) : List Node :=
  nodes.filter (fun node => !setHas (connectedNodes edges) node.id)

/-- The object `graph` after `nodes.forEach(node => (graph[node.id] = []))`. -/
def initGraph (nodes : List Node) : GraphObject :=
  nodes.foldl (fun g node => g.assignEmpty node.id) GraphObject.empty

/-- One step of the `edges.forEach` of `hasCycle`:
`if (graph[edge.source]) graph[edge.source].push(edge.target)`. -/
def addAdjacency (g : GraphObject) (edge : Edge) : Completion GraphObject :=
  if (g.get edge.source).truthy then g.push edge.source edge.target else .ok g

/-- The `edges.forEach` of `hasCycle`. -/
def addAdjacencies : List Edge → GraphObject → Completion GraphObject
  | [], g => .ok g
  | edge :: rest, g => (addAdjacency g edge).bind (addAdjacencies rest)

/-- The sets `visited` and `stack` of `hasCycle`. -/
structure DfsState where
  visited : List String
  stack : List String
deriving DecidableEq

/-- The loop `for (const neighbor of ...) { if (dfs(neighbor)) return true; }`:
`ok (true, _)` when a call returned `true` (the loop is left), `ok (false, _)`
when the loop ran to its end. -/
def forNeighbors (visit : String → DfsState → Completion (Bool × DfsState)) :
    List String → DfsState → Completion (Bool × DfsState)
  | [], st => .ok (false, st)
  | neighbor :: rest, st =>
    match visit neighbor st with
    | .ok (true, st1) => .ok (true, st1)
    | .ok (false, st1) => forNeighbors visit rest st1
    | .typeError => .typeError
    | .outOfFuel => .outOfFuel

/-- The recursive function `dfs` of `hasCycle`, with the sets `visited` and
`stack` threaded through. The first argument bounds the recursion depth. -/
def dfs (g : GraphObject) : Nat → String → DfsState → Completion (Bool × DfsState)
  | 0, _, _ => .outOfFuel
  | fuel + 1, id, st =>
    if setHas st.stack id then .ok (true, st)
    else if setHas st.visited id then .ok (false, st)
    else
      let st1 : DfsState := ⟨setAdd st.visited id, setAdd st.stack id⟩
      match (g.get id).iterate with
      | none => .typeError
      | some neighbors =>
        match forNeighbors (dfs g fuel) neighbors st1 with
        | .ok (true, st2) => .ok (true, st2)
        | .ok (false, st2) => .ok (false, ⟨st2.visited, setDelete st2.stack id⟩)
        | .typeError => .typeError
        | .outOfFuel => .outOfFuel

/-- `keys.some(id => !visited.has(id) && dfs(id))`. -/
def someRoot (g : GraphObject) (fuel : Nat) : List String → DfsState → Completion Bool
  | [], _ => .ok false
  | id :: rest, st =>
    if setHas st.visited id then someRoot g fuel rest st
    else
      match dfs g fuel id st with
      | .ok (true, _) => .ok true
      | .ok (false, st1) => someRoot g fuel rest st1
      | .typeError => .typeError
      | .outOfFuel => .outOfFuel

/-- A recursion budget for `dfs`: every nested call marks a new string as
visited, and the strings that can be visited are node ids, edge targets and
single characters of edge targets. -/
def dfsBudget (nodes : List Node) (edges : List Edge) : Nat :=
  nodes.length + (edges.map (fun e => e.target.length + 1)).sum + 1

/-- The inner function `hasCycle` of `validateDAG`. -/
def hasCycle (nodes : List Node) (edges : List Edge) : Completion Bool :=
  (addAdjacencies edges (initGraph nodes)).bind fun graph =>
    someRoot graph (dfsBudget nodes edges) graph.keys ⟨[], []⟩

/-- The template literal of the second check. -/
def notConnectedMessage (count : Nat) : String :=
  toString count ++ " node(s) not connected"

/-- The function `validateDAG`. -/
def validateDAG (nodes : List Node) (edges : List Edge) : Completion ValidationResult :=
  let errors1 : List String :=
    if nodes.length < 2 then ["At least 2 nodes required"] else []
  let unconnected := unconnectedNodes nodes edges
  let errors2 : List String :=
    if unconnected.length > 0 ∧ nodes.length > 0 then
      errors1 ++ [notConnectedMessage unconnected.length]
    else errors1
  (hasCycle nodes edges).bind fun cyc =>
    let errors3 : List String :=
      if cyc then errors2 ++ ["Cycle detected in graph"] else errors2
    .ok ⟨decide (errors3.length = 0), errors3⟩

/-- An unselected node with the given id, used for examples. -/
def mkNode (id : String) : Node := ⟨id, "custom", ⟨0, 0⟩, id, false⟩

/-- An unselected edge with the given endpoints, with an id derived from them. -/
def mkEdge (source target : String) : Edge :=
  ⟨"reactflow__edge-" ++ source ++ "-" ++ target, source, target, false⟩

/-! ## `getLayoutedElements` -/

/-- The result object `{ nodes, edges }` of `getLayoutedElements`. -/
structure LayoutedElements where
  nodes : List Node
  edges : List Edge
deriving DecidableEq

/-- The position that `getLayoutedElements` gives to the node at index `i`. -/
def gridPosition (i : Nat) : Position :=
  ⟨((i % 3 : Nat) : ℚ) * 200 + 100, ((i / 3 : Nat) : ℚ) * 100 + 50⟩

/-- The function `getLayoutedElements`. -/
def getLayoutedElements (nodes : List Node) (edges : List Edge) : LayoutedElements :=
  ⟨nodes.mapIdx (fun i node => { node with position := gridPosition i }), edges⟩

/-! ## The edit callbacks of `PipelineEditor` -/

/-- The React state of `PipelineEditor` that the edit callbacks read or write.
The id counter is a JavaScript number; it is modelled as a natural number
(increments of integers below `2^53` are exact). -/
structure EditorState where
  nodes : List Node
  edges : List Edge
  nodeId : Nat
  newNodeName : String
  showAddNodeModal : Bool
deriving DecidableEq

/-- The initial state: `useNodesState([])`, `useEdgesState([])`, `useState(1)`,
`useState(false)` and `useState` of the empty string. -/
def EditorState.initial : EditorState := ⟨[], [], 1, "", false⟩

/-- The argument of `onConnect`. The handles of `CustomNode` carry no id, so
`sourceHandle` and `targetHandle` are `null` and are left out. -/
structure Connection where
  source : String
  target : String
deriving DecidableEq

/-- Modelled from the spec: `addEdge` is imported from the `reactflow` package and
is not among the sources. §4.4 says that connect "creates an Edge with default
presentation attributes [...] and appends it", §3 that the edge id is "derived
from (source, target)". -/
def addEdge (params : Connection) (eds : List Edge) : List Edge :=
  eds ++ [mkEdge params.source params.target]

/-- The callback `onConnect`, over the library function `addEdge`. -/
def onConnect (addEdge : Connection → List Edge → List Edge) (s : EditorState)
    (params : Connection) : EditorState :=
  if params.source = params.target then s
  else { s with edges := addEdge params s.edges }

/-- White space and line terminators of ECMAScript, the characters that
`String.prototype.trim` strips. -/
def isWhiteSpace (c : Char) : Bool :=
  decide (c.toNat ∈ [9, 10, 11, 12, 13, 32, 160, 5760, 8232, 8233, 8239, 8287, 12288, 65279])
    || (decide (8192 ≤ c.toNat) && decide (c.toNat ≤ 8202))

/-- `s.trim()`. -/
def trim (s : String) : String :=
  String.mk ((s.toList.dropWhile isWhiteSpace).reverse.dropWhile isWhiteSpace).reverse

/-- The callback `addNode`. The two calls of `Math.random()` are inputs `rx`
and `ry`. -/
def addNode (s : EditorState) (rx ry : ℚ) : EditorState :=
  if trim s.newNodeName = "" then s
  else
    let newNode : Node :=
      ⟨"node-" ++ toString s.nodeId, "custom", ⟨rx * 300 + 50, ry * 300 + 50⟩,
        s.newNodeName, false⟩
    { nodes := s.nodes ++ [newNode]
      edges := s.edges
      nodeId := s.nodeId + 1
      newNodeName := ""
      showAddNodeModal := false }

/-- The callback `deleteSelected`. -/
def deleteSelected (s : EditorState) : EditorState :=
  let selectedNodeIds := (s.nodes.filter (fun n => n.selected)).map (fun n => n.id)
  let selectedEdgeIds := (s.edges.filter (fun e => e.selected)).map (fun e => e.id)
  { s with
    nodes := s.nodes.filter (fun n => !selectedNodeIds.contains n.id)
    edges := s.edges.filter (fun e =>
      !selectedEdgeIds.contains e.id &&
      !selectedNodeIds.contains e.source &&
      !selectedNodeIds.contains e.target) }

/-- The callback `onEdgeClick`, given the id of the clicked edge. -/
def onEdgeClick (s : EditorState) (edgeId : String) : EditorState :=
  { s with edges := s.edges.filter (fun e => e.id ≠ edgeId) }

/-- The callback `onLayout` (the deferred `fitView` concerns rendering only). -/
def onLayout (s : EditorState) : EditorState :=
  let layouted := getLayoutedElements s.nodes s.edges
  { s with nodes := layouted.nodes, edges := layouted.edges }

/-- The callback `clearAll`. -/
def clearAll (s : EditorState) : EditorState :=
  { s with nodes := [], edges := [], nodeId := 1 }

/-- Typing into the modal input: `setNewNodeName(e.target.value)`. -/
def setNewNodeName (s : EditorState) (name : String) : EditorState :=
  { s with newNodeName := name }

/-- Modelled from the spec: selection is "toggled by the external renderer" (§3);
the renderer sets the `selected` flag of the node with the given id. -/
def selectNode (s : EditorState) (id : String) (selected : Bool) : EditorState :=
  { s with nodes := s.nodes.map (fun n => if n.id = id then { n with selected := selected } else n) }

/-- Modelled from the spec: selection is "toggled by the external renderer" (§3);
the renderer sets the `selected` flag of the edge with the given id. -/
def selectEdge (s : EditorState) (id : String) (selected : Bool) : EditorState :=
  { s with edges := s.edges.map (fun e => if e.id = id then { e with selected := selected } else e) }

/-- The operations of the edit controller (§4.4), with the selection toggles of
the renderer. `addNode label rx ry` types `label` into the modal and confirms. -/
inductive Op where
  | addNode (label : String) (rx ry : ℚ)
  | connect (source target : String)
  | deleteSelected
  | deleteEdge (edgeId : String)
  | applyLayout
  | clearAll
  | selectNode (id : String) (selected : Bool)
  | selectEdge (id : String) (selected : Bool)

/-- One operation applied to an editor state. -/
def step (addEdge : Connection → List Edge → List Edge) (s : EditorState) : Op → EditorState
  | .addNode label rx ry => addNode (setNewNodeName s label) rx ry
  | .connect source target => onConnect addEdge s ⟨source, target⟩
  | .deleteSelected => deleteSelected s
  | .deleteEdge edgeId => onEdgeClick s edgeId
  | .applyLayout => onLayout s
  | .clearAll => clearAll s
  | .selectNode id selected => selectNode s id selected
  | .selectEdge id selected => selectEdge s id selected

/-- A sequence of operations applied from left to right. -/
def run (addEdge : Connection → List Edge → List Edge) (s : EditorState) (ops : List Op) :
    EditorState :=
  ops.foldl (step addEdge) s

/-! ## Specification-side notions -/

/-- The edge relation of the directed graph: some edge leads from `u` to `v`. -/
def EdgeRel (edges : List Edge) (u v : String) : Prop :=
  ∃ e ∈ edges, e.source = u ∧ e.target = v

/-- The graph has a directed cycle: a non-empty path of edges from some vertex
back to itself (a self-loop is one). -/
def HasDirectedCycle (edges : List Edge) : Prop :=
  ∃ v, Relation.TransGen (EdgeRel edges) v v

/-- Every edge starts and ends at the id of a node of the list. -/
def EdgesClosed (nodes : List Node) (edges : List Edge) : Prop :=
  ∀ e ∈ edges, (∃ n ∈ nodes, n.id = e.source) ∧ (∃ n ∈ nodes, n.id = e.target)

/-- The number of nodes whose id is neither the source nor the target of any
edge (the spec's count of unconnected nodes). -/
def isolatedNodeCount (nodes : List Node) (edges : List Edge) : Nat :=
  nodes.countP (fun n => decide (∀ e ∈ edges, e.source ≠ n.id ∧ e.target ≠ n.id))

/-- The issues of the first check. -/
def minSizeIssues (nodes : List Node) : List String :=
  if nodes.length < 2 then ["At least 2 nodes required"] else []

/-- The issues of the second check. -/
def notConnectedIssues (nodes : List Node) (edges : List Edge) : List String :=
  if 0 < isolatedNodeCount nodes edges then
    [notConnectedMessage (isolatedNodeCount nodes edges)] else []

/-- The issues of the third check, given the verdict of `hasCycle`. -/
def cycleIssues (cyc : Bool) : List String :=
  if cyc then ["Cycle detected in graph"] else []

/-! ## Notions used in the proofs -/

/-- The number of strings of `U` that are not yet visited. -/
def unvisitedCount (U : List String) (st : DfsState) : Nat :=
  (U.toFinset \ st.visited.toFinset).card

/-- The invariant of the search on finished vertices (visited and no longer on
the stack): their successors are finished, and they lie on no cycle. -/
def Finished (R : String → String → Prop) (st : DfsState) : Prop :=
  ∀ u, u ∈ st.visited → u ∉ st.stack →
    (∀ w, R u w → w ∈ st.visited ∧ w ∉ st.stack) ∧ ¬ Relation.TransGen R u u

/-- What a call `dfs(w)` needs: `w` is a vertex, every vertex on the stack
reaches `w` by a non-empty path, and the invariant holds. -/
def DfsPre (R : String → String → Prop) (U : List String) (w : String) (st : DfsState) : Prop :=
  w ∈ U ∧ (∀ s ∈ st.stack, Relation.TransGen R s w) ∧ Finished R st

/-- What a call `dfs(w)` guarantees: `true` only if there is a cycle; on `false`
the stack is as before, `w` is finished and the invariant holds. -/
def DfsPost (R : String → String → Prop) (w : String) (st : DfsState) (b : Bool)
    (st1 : DfsState) : Prop :=
  (b = true → ∃ v, Relation.TransGen R v v) ∧
  (b = false → (∀ x, x ∈ st1.stack ↔ x ∈ st.stack) ∧ (∀ x ∈ st.visited, x ∈ st1.visited) ∧
    w ∈ st1.visited ∧ w ∉ st1.stack ∧ Finished R st1)

/-- The adjacency array that `graph` holds for a key: the own property of that
name, or, for the key `"__proto__"`, the array installed as prototype. -/
def GraphObject.adjacency (g : GraphObject) (k : String) : Option (List String) :=
  if k = "__proto__" then g.proto else g.own.lookup k

/-- No own property is called `"__proto__"`. -/
def GraphObject.NoProtoOwn (g : GraphObject) : Prop :=
  ∀ kv ∈ g.own, kv.1 ≠ "__proto__"

/-- The edge targets and their single characters: with the node ids, the
strings that `dfs` can be called on. -/
def targetStrings : List Edge → List String
  | [] => []
  | e :: es => e.target :: (e.target.toList.map String.singleton ++ targetStrings es)

/-- Every array held by the graph object contains only strings of `T`. -/
def GraphObject.TargetsIn (g : GraphObject) (T : List String) : Prop :=
  (∀ kv ∈ g.own, ∀ w ∈ kv.2, w ∈ T) ∧ (∀ p, g.proto = some p → ∀ w ∈ p, w ∈ T)

/-- The ids of the nodes of an editor state, in order. -/
def EditorState.nodeIds (s : EditorState) : List String :=
  s.nodes.map (fun n => n.id)

/-- The invariant of the editor: the node ids are pairwise distinct, and each is
`node-<k>` for some `k` below the id counter. -/
def NodeIdsFresh (s : EditorState) : Prop :=
  s.nodeIds.Nodup ∧ ∀ x ∈ s.nodeIds, ∃ k, k < s.nodeId ∧ x = "node-" ++ toString k

/-! ## Basic facts -/

theorem mem_setAdd {s : List String} {x y : String} : y ∈ setAdd s x ↔ y ∈ s ∨ y = x := by
  unfold setAdd
  split
  · constructor
    · exact Or.inl
    · rintro (h | rfl)
      · exact h
      · assumption
  · simp

theorem mem_setDelete {s : List String} {x y : String} : y ∈ setDelete s x ↔ y ∈ s ∧ y ≠ x := by
  simp [setDelete]

theorem setHas_iff {s : List String} {x : String} : setHas s x = true ↔ x ∈ s := by
  simp [setHas]

theorem mem_foldl_connected (edges : List Edge) (acc : List String) (x : String) :
    x ∈ edges.foldl (fun s e => setAdd (setAdd s e.source) e.target) acc ↔
      x ∈ acc ∨ ∃ e ∈ edges, e.source = x ∨ e.target = x := by
  induction edges generalizing acc with
  | nil => simp
  | cons e es ih =>
    rw [List.foldl_cons, ih, mem_setAdd, mem_setAdd]
    constructor
    · rintro (((h | rfl) | rfl) | ⟨e', he', h'⟩)
      · exact Or.inl h
      · exact Or.inr ⟨e, List.mem_cons_self _ _, Or.inl rfl⟩
      · exact Or.inr ⟨e, List.mem_cons_self _ _, Or.inr rfl⟩
      · exact Or.inr ⟨e', List.mem_cons_of_mem _ he', h'⟩
    · rintro (h | ⟨e', he', h'⟩)
      · exact Or.inl (Or.inl (Or.inl h))
      · rcases List.mem_cons.1 he' with rfl | he'
        · rcases h' with h' | h'
          · exact Or.inl (Or.inl (Or.inr h'.symm))
          · exact Or.inl (Or.inr h'.symm)
        · exact Or.inr ⟨e', he', h'⟩

theorem mem_connectedNodes {edges : List Edge} {x : String} :
    x ∈ connectedNodes edges ↔ ∃ e ∈ edges, e.source = x ∨ e.target = x := by
  simp [connectedNodes, mem_foldl_connected]

/-- The array `unconnectedNodes` has as many elements as there are nodes that
no edge touches. -/
theorem unconnectedNodes_length (nodes : List Node) (edges : List Edge) :
    (unconnectedNodes nodes edges).length = isolatedNodeCount nodes edges := by
  unfold unconnectedNodes isolatedNodeCount
  rw [List.countP_eq_length_filter]
  congr 1
  apply List.filter_congr
  intro n _
  rw [Bool.eq_iff_iff]
  simp only [Bool.not_eq_true', decide_eq_true_eq]
  rw [← Bool.not_eq_true, setHas_iff, mem_connectedNodes]
  constructor
  · intro h e he
    exact ⟨fun h1 => h ⟨e, he, Or.inl h1⟩, fun h2 => h ⟨e, he, Or.inr h2⟩⟩
  · rintro h ⟨e, he, h1 | h2⟩
    · exact (h e he).1 h1
    · exact (h e he).2 h2

/-! ## Decimal numerals -/

theorem digitChar_value (m : Nat) (h : m < 10) : (Nat.digitChar m).toNat - 48 = m := by
  interval_cases m <;> rfl

theorem foldl_toDigitsCore (fuel n : Nat) (ds : List Char) (h : n < fuel) :
    (Nat.toDigitsCore 10 fuel n ds).foldl (fun acc c => acc * 10 + (c.toNat - 48)) 0
      = ds.foldl (fun acc c => acc * 10 + (c.toNat - 48)) n := by
  induction fuel generalizing n ds with
  | zero => omega
  | succ fuel ih =>
    unfold Nat.toDigitsCore
    simp only
    split
    · rename_i h0
      simp only [List.foldl_cons, Nat.zero_mul, Nat.zero_add]
      rw [digitChar_value _ (Nat.mod_lt _ (by decide))]
      have : n % 10 = n := by omega
      rw [this]
    · rw [ih (n / 10) _ (by omega)]
      simp only [List.foldl_cons]
      rw [digitChar_value _ (Nat.mod_lt _ (by decide))]
      have : n / 10 * 10 + n % 10 = n := by omega
      rw [this]

/-- Reading back the decimal numeral of a number gives the number. -/
theorem decimalValue_toString (n : Nat) : decimalValue (toString n).toList = n := by
  show (Nat.toDigitsCore 10 (n + 1) n []).foldl _ 0 = n
  rw [foldl_toDigitsCore _ _ _ (Nat.lt_succ_self n)]
  rfl

theorem toString_nat_injective {a b : Nat} (h : toString a = toString b) : a = b := by
  rw [← decimalValue_toString a, ← decimalValue_toString b, h]

theorem arrayIndex?_eq_some {k : String} {n : Nat} (h : arrayIndex? k = some n) :
    toString n = k := by
  unfold arrayIndex? at h
  simp only at h
  split at h
  · rename_i hk
    cases h
    exact hk.1
  · cases h

/-! ## The messages -/

theorem notConnectedMessage_injective {a b : Nat}
    (h : notConnectedMessage a = notConnectedMessage b) : a = b := by
  unfold notConnectedMessage at h
  apply toString_nat_injective
  have h1 := congrArg String.data h
  simp only [String.data_append] at h1
  exact String.ext (List.append_cancel_right h1)

theorem notConnectedMessage_ne_minSize (j : Nat) :
    notConnectedMessage j ≠ "At least 2 nodes required" := by
  intro h
  have h1 : " node(s) not connected".data <:+ "At least 2 nodes required".data := by
    rw [← h]
    unfold notConnectedMessage
    rw [String.data_append]
    exact List.suffix_append _ _
  exact absurd h1 (by decide)

theorem notConnectedMessage_ne_cycle (j : Nat) :
    notConnectedMessage j ≠ "Cycle detected in graph" := by
  intro h
  have h1 : " node(s) not connected".data <:+ "Cycle detected in graph".data := by
    rw [← h]
    unfold notConnectedMessage
    rw [String.data_append]
    exact List.suffix_append _ _
  exact absurd h1 (by decide)

/-! ## The shape of the result of `validateDAG` -/

theorem isolatedNodeCount_pos_length {nodes : List Node} {edges : List Edge}
    (h : 0 < isolatedNodeCount nodes edges) : 0 < nodes.length := by
  unfold isolatedNodeCount at h
  exact lt_of_lt_of_le h (List.countP_le_length _)

/-- `validateDAG` returns exactly when `hasCycle` does, and its result is the
concatenation of the issues of the three checks. -/
theorem validateDAG_eq_ok_iff (nodes : List Node) (edges : List Edge) (r : ValidationResult) :
    validateDAG nodes edges = .ok r ↔
      ∃ cyc, hasCycle nodes edges = .ok cyc ∧
        r.errors = minSizeIssues nodes ++ notConnectedIssues nodes edges ++ cycleIssues cyc ∧
        r.isValid = decide (r.errors = []) := by
  have key : ∀ cyc : Bool,
      (if cyc = true then
        (if (unconnectedNodes nodes edges).length > 0 ∧ nodes.length > 0 then
          (if nodes.length < 2 then ["At least 2 nodes required"] else []) ++
            [notConnectedMessage (unconnectedNodes nodes edges).length]
        else (if nodes.length < 2 then ["At least 2 nodes required"] else []))
          ++ ["Cycle detected in graph"]
      else
        (if (unconnectedNodes nodes edges).length > 0 ∧ nodes.length > 0 then
          (if nodes.length < 2 then ["At least 2 nodes required"] else []) ++
            [notConnectedMessage (unconnectedNodes nodes edges).length]
        else (if nodes.length < 2 then ["At least 2 nodes required"] else [])))
      = minSizeIssues nodes ++ notConnectedIssues nodes edges ++ cycleIssues cyc := by
    intro cyc
    rw [unconnectedNodes_length]
    unfold minSizeIssues notConnectedIssues cycleIssues
    by_cases hk : 0 < isolatedNodeCount nodes edges
    · have := isolatedNodeCount_pos_length hk
      cases cyc <;> simp [hk, this]
    · cases cyc <;> simp [hk]
  unfold validateDAG
  cases hc : hasCycle nodes edges with
  | ok cyc =>
    simp only [Completion.bind, Completion.ok.injEq, exists_eq_left']
    rw [key cyc]
    constructor
    · rintro rfl
      simp
    · rintro ⟨h1, h2⟩
      cases r
      simp only at h1 h2
      subst h1
      simp [h2]
  | typeError => simp [Completion.bind]
  | outOfFuel => simp [Completion.bind]

/-! ## The recursion budget suffices -/

theorem unvisitedCount_mono {U : List String} {st st1 : DfsState}
    (h : ∀ x ∈ st.visited, x ∈ st1.visited) : unvisitedCount U st1 ≤ unvisitedCount U st := by
  unfold unvisitedCount
  apply Finset.card_le_card
  intro x hx
  simp only [Finset.mem_sdiff, List.mem_toFinset] at hx ⊢
  exact ⟨hx.1, fun hv => hx.2 (h x hv)⟩

theorem unvisitedCount_add {U : List String} {st : DfsState} {id : String} (stack1 : List String)
    (hU : id ∈ U) (hv : id ∉ st.visited) :
    unvisitedCount U ⟨setAdd st.visited id, stack1⟩ < unvisitedCount U st := by
  unfold unvisitedCount
  apply Finset.card_lt_card
  rw [Finset.ssubset_iff_of_subset]
  · refine ⟨id, ?_, ?_⟩
    · simp [hU, hv]
    · simp [mem_setAdd]
  · intro x hx
    simp only [Finset.mem_sdiff, List.mem_toFinset, mem_setAdd] at hx ⊢
    exact ⟨hx.1, fun h => hx.2 (Or.inl h)⟩

/-- The loop over the neighbours does not exhaust the budget if no call does. -/
theorem forNeighbors_budget (visit : String → DfsState → Completion (Bool × DfsState))
    (U : List String) (fuel : Nat)
    (hvisit : ∀ w st, w ∈ U → unvisitedCount U st < fuel →
      visit w st ≠ .outOfFuel ∧
        ∀ b st1, visit w st = .ok (b, st1) → ∀ x ∈ st.visited, x ∈ st1.visited) :
    ∀ (rest : List String) (st : DfsState), (∀ w ∈ rest, w ∈ U) → unvisitedCount U st < fuel →
      forNeighbors visit rest st ≠ .outOfFuel ∧
        ∀ b st1, forNeighbors visit rest st = .ok (b, st1) → ∀ x ∈ st.visited, x ∈ st1.visited := by
  intro rest
  induction rest with
  | nil =>
    intro st _ _
    simp only [forNeighbors]
    refine ⟨by simp, ?_⟩
    intro b st1 h x hx
    cases h
    exact hx
  | cons w rest ih =>
    intro st hrest hcount
    have hw := hvisit w st (hrest w (List.mem_cons_self _ _)) hcount
    simp only [forNeighbors]
    cases hres : visit w st with
    | ok res =>
      obtain ⟨b, st2⟩ := res
      have hmono := hw.2 b st2 hres
      cases b with
      | true =>
        refine ⟨by simp, ?_⟩
        intro b st1 h x hx
        cases h
        exact hmono x hx
      | false =>
        have hrec := ih st2 (fun v hv => hrest v (List.mem_cons_of_mem _ hv))
          (lt_of_le_of_lt (unvisitedCount_mono hmono) hcount)
        refine ⟨hrec.1, ?_⟩
        intro b st1 h x hx
        exact hrec.2 b st1 h x (hmono x hx)
    | typeError => simp
    | outOfFuel => exact absurd hres hw.1

/-- A call of `dfs` does not exhaust a budget that exceeds the number of
unvisited strings, provided the strings reachable through `graph` stay in `U`. -/
theorem dfs_budget (g : GraphObject) (U : List String)
    (hU : ∀ u ∈ U, ∀ nbrs, (g.get u).iterate = some nbrs → ∀ w ∈ nbrs, w ∈ U) :
    ∀ (fuel : Nat) (id : String) (st : DfsState), id ∈ U → unvisitedCount U st < fuel →
      dfs g fuel id st ≠ .outOfFuel ∧
        ∀ b st1, dfs g fuel id st = .ok (b, st1) → ∀ x ∈ st.visited, x ∈ st1.visited := by
  intro fuel
  induction fuel with
  | zero => intro id st _ h; omega
  | succ fuel ih =>
    intro id st hid hcount
    simp only [dfs]
    by_cases hs : setHas st.stack id = true
    · simp only [hs, if_true]
      refine ⟨by simp, ?_⟩
      intro b st1 h x hx
      cases h
      exact hx
    · simp only [hs, if_false]
      by_cases hv : setHas st.visited id = true
      · simp only [hv, if_true]
        refine ⟨by simp, ?_⟩
        intro b st1 h x hx
        cases h
        exact hx
      · simp only [hv, if_false]
        cases hit : (g.get id).iterate with
        | none => simp
        | some nbrs =>
          simp only
          have hv1 : id ∉ st.visited := fun h => hv (setHas_iff.2 h)
          have hc1 := unvisitedCount_add (setAdd st.stack id) hid hv1
          have hloop := forNeighbors_budget (dfs g fuel) U fuel ih nbrs
            ⟨setAdd st.visited id, setAdd st.stack id⟩ (hU id hid nbrs hit) (by omega)
          cases hres : forNeighbors (dfs g fuel) nbrs ⟨setAdd st.visited id, setAdd st.stack id⟩ with
          | ok res =>
            obtain ⟨b, st2⟩ := res
            have hmono := hloop.2 b st2 hres
            cases b with
            | true =>
              refine ⟨by simp, ?_⟩
              intro b st1 h x hx
              cases h
              exact hmono x (mem_setAdd.2 (Or.inl hx))
            | false =>
              refine ⟨by simp, ?_⟩
              intro b st1 h x hx
              cases h
              exact hmono x (mem_setAdd.2 (Or.inl hx))
          | typeError => simp
          | outOfFuel => exact absurd hres hloop.1

/-! ## Correctness of the depth-first search -/

theorem Finished.reach {R : String → String → Prop} {st : DfsState} (h : Finished R st)
    {u v : String} (hu : u ∈ st.visited ∧ u ∉ st.stack) (huv : Relation.ReflTransGen R u v) :
    v ∈ st.visited ∧ v ∉ st.stack := by
  induction huv with
  | refl => exact hu
  | tail _ hbc ih => exact (h _ ih.1 ih.2).1 _ hbc

theorem forNeighbors_correct (visit : String → DfsState → Completion (Bool × DfsState))
    (R : String → String → Prop) (U : List String)
    (hvisit : ∀ w st, DfsPre R U w st →
      visit w st ≠ .typeError ∧ ∀ b st1, visit w st = .ok (b, st1) → DfsPost R w st b st1) :
    ∀ (rest : List String) (st : DfsState),
      (∀ w ∈ rest, w ∈ U ∧ ∀ s ∈ st.stack, Relation.TransGen R s w) → Finished R st →
      forNeighbors visit rest st ≠ .typeError ∧
        ∀ b st1, forNeighbors visit rest st = .ok (b, st1) →
          (b = true → ∃ v, Relation.TransGen R v v) ∧
          (b = false → (∀ x, x ∈ st1.stack ↔ x ∈ st.stack) ∧
            (∀ x ∈ st.visited, x ∈ st1.visited) ∧ Finished R st1 ∧
            ∀ w ∈ rest, w ∈ st1.visited ∧ w ∉ st1.stack) := by
  intro rest
  induction rest with
  | nil =>
    intro st _ hfin
    simp only [forNeighbors]
    refine ⟨by simp, ?_⟩
    intro b st1 h
    cases h
    exact ⟨by simp, fun _ => ⟨fun _ => Iff.rfl, fun _ hx => hx, hfin, by simp⟩⟩
  | cons w rest ih =>
    intro st hrest hfin
    have hwpre : DfsPre R U w st :=
      ⟨(hrest w (List.mem_cons_self _ _)).1, (hrest w (List.mem_cons_self _ _)).2, hfin⟩
    have hw := hvisit w st hwpre
    simp only [forNeighbors]
    cases hres : visit w st with
    | ok res =>
      obtain ⟨b, st2⟩ := res
      have hpost := hw.2 b st2 hres
      cases b with
      | true =>
        refine ⟨by simp, ?_⟩
        intro b st1 h
        cases h
        exact ⟨fun _ => hpost.1 rfl, by simp⟩
      | false =>
        obtain ⟨hstack, hvis, hwv, hws, hfin2⟩ := hpost.2 rfl
        have hrec := ih st2
          (fun v hv => ⟨(hrest v (List.mem_cons_of_mem _ hv)).1,
            fun s hs => (hrest v (List.mem_cons_of_mem _ hv)).2 s ((hstack s).1 hs)⟩) hfin2
        refine ⟨hrec.1, ?_⟩
        intro b st1 h
        have hr := hrec.2 b st1 h
        refine ⟨hr.1, ?_⟩
        intro hb
        obtain ⟨hstack1, hvis1, hfin1, hall⟩ := hr.2 hb
        refine ⟨fun x => (hstack1 x).trans (hstack x), fun x hx => hvis1 x (hvis x hx), hfin1, ?_⟩
        intro v hv
        rcases List.mem_cons.1 hv with rfl | hv
        · exact ⟨hvis1 _ hwv, fun h => hws ((hstack1 _).1 h)⟩
        · exact hall v hv
    | typeError => exact absurd hres hw.1
    | outOfFuel => simp

/-- Correctness of `dfs` on a graph object that holds, for every vertex of `U`,
the list of its successors under `R`. -/
theorem dfs_correct (g : GraphObject) (R : String → String → Prop) (U : List String)
    (hadj : ∀ u ∈ U, ∃ nbrs, (g.get u).iterate = some nbrs ∧ ∀ w, w ∈ nbrs ↔ R u w)
    (hclosed : ∀ u w, R u w → w ∈ U) :
    ∀ (fuel : Nat) (id : String) (st : DfsState), DfsPre R U id st →
      dfs g fuel id st ≠ .typeError ∧
        ∀ b st1, dfs g fuel id st = .ok (b, st1) → DfsPost R id st b st1 := by
  intro fuel
  induction fuel with
  | zero =>
    intro id st _
    simp [dfs]
  | succ fuel ih =>
    intro id st hpre
    obtain ⟨hid, hpath, hfin⟩ := hpre
    simp only [dfs]
    by_cases hs : setHas st.stack id = true
    · simp only [hs, if_true]
      refine ⟨by simp, ?_⟩
      intro b st1 h
      cases h
      exact ⟨fun _ => ⟨id, hpath id (setHas_iff.1 hs)⟩, by simp⟩
    · simp only [hs, if_false]
      have hs1 : id ∉ st.stack := fun h => hs (setHas_iff.2 h)
      by_cases hv : setHas st.visited id = true
      · simp only [hv, if_true]
        refine ⟨by simp, ?_⟩
        intro b st1 h
        cases h
        exact ⟨by simp, fun _ => ⟨fun _ => Iff.rfl, fun _ hx => hx, setHas_iff.1 hv, hs1, hfin⟩⟩
      · simp only [hv, if_false]
        have hv1 : id ∉ st.visited := fun h => hv (setHas_iff.2 h)
        obtain ⟨nbrs, hit, hnb⟩ := hadj id hid
        simp only [hit]
        have hfin1 : Finished R ⟨setAdd st.visited id, setAdd st.stack id⟩ := by
          intro u hu hus
          simp only [mem_setAdd, not_or] at hu hus
          have huv : u ∈ st.visited := hu.resolve_right hus.2
          have h1 := hfin u huv hus.1
          refine ⟨fun w hw => ?_, h1.2⟩
          have h2 := h1.1 w hw
          simp only [mem_setAdd, not_or]
          exact ⟨Or.inl h2.1, h2.2, fun h => hv1 (h ▸ h2.1)⟩
        have hloop := forNeighbors_correct (dfs g fuel) R U ih nbrs
          ⟨setAdd st.visited id, setAdd st.stack id⟩
          (fun w hw => ⟨hclosed id w ((hnb w).1 hw), fun s hs => by
            rcases mem_setAdd.1 hs with h | rfl
            · exact Relation.TransGen.tail (hpath s h) ((hnb w).1 hw)
            · exact Relation.TransGen.single ((hnb w).1 hw)⟩) hfin1
        cases hres : forNeighbors (dfs g fuel) nbrs ⟨setAdd st.visited id, setAdd st.stack id⟩ with
        | ok res =>
          obtain ⟨b, st2⟩ := res
          have hr := hloop.2 b st2 hres
          cases b with
          | true =>
            refine ⟨by simp, ?_⟩
            intro b st1 h
            cases h
            exact ⟨fun _ => hr.1 rfl, by simp⟩
          | false =>
            refine ⟨by simp, ?_⟩
            intro b st1 h
            cases h
            refine ⟨by simp, fun _ => ?_⟩
            obtain ⟨hstack, hvis, hfin2, hall⟩ := hr.2 rfl
            simp only [mem_setAdd] at hstack hvis
            have hid2 : id ∈ st2.stack := (hstack id).2 (Or.inr rfl)
            refine ⟨?_, fun x hx => hvis x (Or.inl hx), hvis id (Or.inr rfl), ?_, ?_⟩
            · intro x
              simp only [mem_setDelete, hstack]
              constructor
              · rintro ⟨h | h, hne⟩
                · exact h
                · exact absurd h hne
              · intro h
                exact ⟨Or.inl h, fun hx => hs1 (hx ▸ h)⟩
            · simp [mem_setDelete]
            · intro u hu hus
              simp only [mem_setDelete, not_and, not_not] at hus
              by_cases hui : u = id
              · subst hui
                have hsucc : ∀ w, R u w → w ∈ st2.visited ∧ w ∉ st2.stack :=
                  fun w hw => hall w ((hnb w).2 hw)
                refine ⟨fun w hw => ⟨(hsucc w hw).1, fun h => (hsucc w hw).2 (mem_setDelete.1 h).1⟩, ?_⟩
                intro hcyc
                obtain ⟨w, hw, hreach⟩ := Relation.TransGen.head'_iff.1 hcyc
                exact (hfin2.reach (hsucc w hw) hreach).2 hid2
              · have hus2 : u ∉ st2.stack := fun h => hui (hus h)
                have h1 := hfin2 u hu hus2
                exact ⟨fun w hw => ⟨(h1.1 w hw).1, fun h => (h1.1 w hw).2 (mem_setDelete.1 h).1⟩, h1.2⟩
        | typeError => exact absurd hres hloop.1
        | outOfFuel => simp

theorem someRoot_budget (g : GraphObject) (U : List String) (fuel : Nat)
    (hU : ∀ u ∈ U, ∀ nbrs, (g.get u).iterate = some nbrs → ∀ w ∈ nbrs, w ∈ U) :
    ∀ (keys : List String) (st : DfsState), (∀ k ∈ keys, k ∈ U) → unvisitedCount U st < fuel →
      someRoot g fuel keys st ≠ .outOfFuel := by
  intro keys
  induction keys with
  | nil => intro st _ _; simp [someRoot]
  | cons k keys ih =>
    intro st hkeys hcount
    simp only [someRoot]
    have hkeys1 : ∀ k1 ∈ keys, k1 ∈ U := fun k1 h => hkeys k1 (List.mem_cons_of_mem _ h)
    split
    · exact ih st hkeys1 hcount
    · have hd := dfs_budget g U hU fuel k st (hkeys k (List.mem_cons_self _ _)) hcount
      cases hres : dfs g fuel k st with
      | ok res =>
        obtain ⟨b, st1⟩ := res
        cases b with
        | true => simp
        | false =>
          exact ih st1 hkeys1 (lt_of_le_of_lt (unvisitedCount_mono (hd.2 false st1 hres)) hcount)
      | typeError => simp
      | outOfFuel => exact absurd hres hd.1

theorem someRoot_correct (g : GraphObject) (R : String → String → Prop) (U : List String)
    (fuel : Nat)
    (hadj : ∀ u ∈ U, ∃ nbrs, (g.get u).iterate = some nbrs ∧ ∀ w, w ∈ nbrs ↔ R u w)
    (hclosed : ∀ u w, R u w → w ∈ U) :
    ∀ (keys : List String) (st : DfsState), (∀ k ∈ keys, k ∈ U) → (∀ x, x ∉ st.stack) →
      Finished R st →
      someRoot g fuel keys st ≠ .typeError ∧
        ∀ b, someRoot g fuel keys st = .ok b →
          (b = true → ∃ v, Relation.TransGen R v v) ∧
          (b = false → ∀ k ∈ keys, ¬ Relation.TransGen R k k) := by
  intro keys
  induction keys with
  | nil =>
    intro st _ _ _
    simp only [someRoot]
    refine ⟨by simp, ?_⟩
    intro b h
    cases h
    simp
  | cons k keys ih =>
    intro st hkeys hstack hfin
    simp only [someRoot]
    have hkeys1 : ∀ k1 ∈ keys, k1 ∈ U := fun k1 h => hkeys k1 (List.mem_cons_of_mem _ h)
    split
    · rename_i hv
      have hrec := ih st hkeys1 hstack hfin
      refine ⟨hrec.1, ?_⟩
      intro b h
      refine ⟨(hrec.2 b h).1, fun hb k1 hk1 => ?_⟩
      rcases List.mem_cons.1 hk1 with rfl | hk1
      · exact (hfin _ (setHas_iff.1 hv) (hstack _)).2
      · exact (hrec.2 b h).2 hb k1 hk1
    · have hd := dfs_correct g R U hadj hclosed fuel k st
        ⟨hkeys k (List.mem_cons_self _ _), fun s hs => absurd hs (hstack s), hfin⟩
      cases hres : dfs g fuel k st with
      | ok res =>
        obtain ⟨b, st1⟩ := res
        have hpost := hd.2 b st1 hres
        cases b with
        | true =>
          refine ⟨by simp, ?_⟩
          intro b h
          cases h
          exact ⟨fun _ => hpost.1 rfl, by simp⟩
        | false =>
          obtain ⟨hst, _, hkv, hks, hfin1⟩ := hpost.2 rfl
          have hrec := ih st1 hkeys1 (fun x hx => hstack x ((hst x).1 hx)) hfin1
          refine ⟨hrec.1, ?_⟩
          intro b h
          refine ⟨(hrec.2 b h).1, fun hb k1 hk1 => ?_⟩
          rcases List.mem_cons.1 hk1 with rfl | hk1
          · exact (hfin1 _ hkv hks).2
          · exact (hrec.2 b h).2 hb k1 hk1
      | typeError => exact absurd hres hd.1
      | outOfFuel => simp

/-! ## The graph object as an adjacency map -/

theorem lookup_cons_eq (u k : String) (v : List String) (l : List (String × List String)) :
    List.lookup u ((k, v) :: l) = if u = k then some v else List.lookup u l := by
  rw [List.lookup_cons]
  by_cases h : u = k
  · subst h
    simp
  · have hb : (u == k) = false := by simpa using h
    simp [hb, h]

theorem lookup_eq_none_of_not_mem {u : String} {l : List (String × List String)}
    (h : ∀ kv ∈ l, kv.1 ≠ u) : List.lookup u l = none := by
  induction l with
  | nil => rfl
  | cons kv l ih =>
    obtain ⟨k, v⟩ := kv
    rw [lookup_cons_eq]
    have hk : u ≠ k := fun e => h (k, v) (List.mem_cons_self _ _) e.symm
    rw [if_neg hk]
    exact ih (fun kv hkv => h kv (List.mem_cons_of_mem _ hkv))

theorem lookup_isSome_iff {u : String} {l : List (String × List String)} :
    (List.lookup u l).isSome = true ↔ u ∈ l.map Prod.fst := by
  induction l with
  | nil => simp
  | cons kv l ih =>
    obtain ⟨k, v⟩ := kv
    rw [lookup_cons_eq]
    by_cases h : u = k
    · simp [h]
    · simp [h, ih]

theorem mem_of_lookup_eq_some {u : String} {xs : List String} {l : List (String × List String)}
    (h : List.lookup u l = some xs) : (u, xs) ∈ l := by
  induction l with
  | nil => cases h
  | cons kv l ih =>
    obtain ⟨k, v⟩ := kv
    rw [lookup_cons_eq] at h
    by_cases hk : u = k
    · rw [if_pos hk] at h
      cases h
      subst hk
      exact List.mem_cons_self _ _
    · rw [if_neg hk] at h
      exact List.mem_cons_of_mem _ (ih h)

theorem lookup_map_update (f : List String → List String) (u k : String)
    (l : List (String × List String)) :
    List.lookup u (l.map (fun kv => if kv.1 = k then (kv.1, f kv.2) else kv)) =
      (List.lookup u l).map (fun xs => if u = k then f xs else xs) := by
  induction l with
  | nil => rfl
  | cons kv l ih =>
    obtain ⟨k1, v⟩ := kv
    simp only [List.map_cons]
    by_cases hk : k1 = k
    · subst hk
      simp only [if_true]
      rw [lookup_cons_eq, lookup_cons_eq]
      by_cases hu : u = k1
      · simp [hu]
      · rw [if_neg hu, if_neg hu]
        exact ih
    · simp only [hk, if_false]
      rw [lookup_cons_eq, lookup_cons_eq]
      by_cases hu : u = k1
      · subst hu
        simp [hk]
      · rw [if_neg hu, if_neg hu]
        exact ih

theorem map_fst_map_update (f : List String → List String) (k : String)
    (l : List (String × List String)) :
    (l.map (fun kv => if kv.1 = k then (kv.1, f kv.2) else kv)).map Prod.fst = l.map Prod.fst := by
  induction l with
  | nil => rfl
  | cons kv l ih =>
    simp only [List.map_cons, ih]
    split <;> rfl

theorem lookup_append_single (u k : String) (v : List String) (l : List (String × List String)) :
    List.lookup u (l ++ [(k, v)]) =
      match List.lookup u l with
      | some xs => some xs
      | none => if u = k then some v else none := by
  induction l with
  | nil =>
    simp only [List.nil_append]
    rw [lookup_cons_eq]
    rfl
  | cons kv l ih =>
    obtain ⟨k1, v1⟩ := kv
    simp only [List.cons_append]
    rw [lookup_cons_eq, lookup_cons_eq]
    by_cases hu : u = k1
    · simp [hu]
    · simp only [hu, if_false]
      exact ih

theorem GraphObject.adjacency_assignEmpty (g : GraphObject) (k u : String) :
    (g.assignEmpty k).adjacency u = if u = k then some [] else g.adjacency u := by
  unfold GraphObject.assignEmpty GraphObject.adjacency
  by_cases hk : k = "__proto__"
  · subst hk
    by_cases hu : u = "__proto__"
    · simp [hu]
    · simp [hu]
  · rw [if_neg hk]
    have hk1 : ¬ "__proto__" = k := fun e => hk e.symm
    by_cases hl : (List.lookup k g.own).isSome = true
    · rw [if_pos hl]
      by_cases hu : u = "__proto__"
      · subst hu
        simp [hk1]
      · simp only [hu, if_false]
        rw [lookup_map_update (fun _ => [])]
        by_cases huk : u = k
        · subst huk
          obtain ⟨xs, hxs⟩ := Option.isSome_iff_exists.1 hl
          simp [hxs]
        · simp [huk]
    · rw [if_neg hl]
      by_cases hu : u = "__proto__"
      · subst hu
        simp [hk1]
      · simp only [hu, if_false]
        rw [lookup_append_single]
        by_cases huk : u = k
        · subst huk
          have : List.lookup u g.own = none := by
            cases h : List.lookup u g.own with
            | none => rfl
            | some xs => simp [h] at hl
          simp [this]
        · simp only [huk, if_false]
          cases List.lookup u g.own <;> rfl

theorem GraphObject.noProtoOwn_assignEmpty {g : GraphObject} (h : g.NoProtoOwn) (k : String) :
    (g.assignEmpty k).NoProtoOwn := by
  unfold GraphObject.assignEmpty
  by_cases hk : k = "__proto__"
  · simpa [hk] using h
  · simp only [hk, if_false]
    split
    · intro kv hkv
      simp only [List.mem_map] at hkv
      obtain ⟨kv0, hkv0, rfl⟩ := hkv
      split
      · exact h kv0 hkv0
      · exact h kv0 hkv0
    · intro kv hkv
      simp only [List.mem_append, List.mem_singleton] at hkv
      rcases hkv with hkv | rfl
      · exact h kv hkv
      · exact hk

theorem GraphObject.keys_assignEmpty (g : GraphObject) (k u : String) :
    u ∈ (g.assignEmpty k).own.map Prod.fst ↔
      u ∈ g.own.map Prod.fst ∨ (u = k ∧ k ≠ "__proto__") := by
  unfold GraphObject.assignEmpty
  by_cases hk : k = "__proto__"
  · simp [hk]
  · simp only [hk, if_false]
    split
    · rename_i hl
      rw [map_fst_map_update (fun _ => [])]
      constructor
      · exact Or.inl
      · rintro (h | ⟨rfl, _⟩)
        · exact h
        · exact lookup_isSome_iff.1 hl
    · simp [hk]

theorem GraphObject.get_of_adjacency {g : GraphObject} (h : g.NoProtoOwn) {u : String}
    {xs : List String} (ha : g.adjacency u = some xs) : g.get u = .array xs := by
  unfold GraphObject.adjacency at ha
  unfold GraphObject.get
  by_cases hu : u = "__proto__"
  · rw [if_pos hu] at ha
    subst hu
    rw [lookup_eq_none_of_not_mem h]
    simp [ha]
  · rw [if_neg hu] at ha
    rw [ha]

theorem GraphObject.push_of_adjacency {g : GraphObject} (h : g.NoProtoOwn) {k : String}
    {xs : List String} (ha : g.adjacency k = some xs) (t : String) :
    ∃ g1, g.push k t = .ok g1 ∧ g1.NoProtoOwn ∧ g1.own.map Prod.fst = g.own.map Prod.fst ∧
      ∀ u, g1.adjacency u = if u = k then some (xs ++ [t]) else g.adjacency u := by
  unfold GraphObject.adjacency at ha
  unfold GraphObject.push
  by_cases hk : k = "__proto__"
  · subst hk
    rw [if_pos rfl] at ha
    have hl : List.lookup "__proto__" g.own = none := lookup_eq_none_of_not_mem h
    simp only [hl, Option.isSome_none, Bool.false_eq_true, if_false, ha, if_true]
    refine ⟨_, rfl, h, rfl, ?_⟩
    intro u
    unfold GraphObject.adjacency
    by_cases hu : u = "__proto__"
    · simp [hu]
    · simp [hu]
  · rw [if_neg hk] at ha
    simp only [ha, Option.isSome_some, if_true]
    refine ⟨_, rfl, ?_, map_fst_map_update (fun v => v ++ [t]) k g.own, ?_⟩
    · intro kv hkv
      simp only [List.mem_map] at hkv
      obtain ⟨kv0, hkv0, rfl⟩ := hkv
      split
      · exact h kv0 hkv0
      · exact h kv0 hkv0
    · intro u
      unfold GraphObject.adjacency
      by_cases hu : u = "__proto__"
      · have hk1 : ¬ "__proto__" = k := fun e => hk e.symm
        subst hu
        simp [hk1]
      · simp only [hu, if_false]
        rw [lookup_map_update (fun v => v ++ [t])]
        by_cases huk : u = k
        · subst huk
          simp [ha]
        · simp [huk]

/-- On a graph object that has an adjacency array for every edge source, the
`edges.forEach` of `hasCycle` completes and appends every edge target to the
array of its source. -/
theorem addAdjacencies_closed :
    ∀ (edges : List Edge) (g : GraphObject), g.NoProtoOwn →
      (∀ e ∈ edges, (g.adjacency e.source).isSome = true) →
      ∃ g1, addAdjacencies edges g = .ok g1 ∧ g1.NoProtoOwn ∧
        g1.own.map Prod.fst = g.own.map Prod.fst ∧
        ∀ u, g1.adjacency u =
          (g.adjacency u).map
            (fun xs => xs ++ (edges.filter (fun e => e.source = u)).map (fun e => e.target)) := by
  intro edges
  induction edges with
  | nil =>
    intro g h _
    refine ⟨g, rfl, h, rfl, ?_⟩
    intro u
    simp
  | cons e es ih =>
    intro g h hsrc
    obtain ⟨xs, hxs⟩ := Option.isSome_iff_exists.1 (hsrc e (List.mem_cons_self _ _))
    obtain ⟨g1, hpush, hnp1, hkeys1, hadj1⟩ := GraphObject.push_of_adjacency h hxs e.target
    have hsrc1 : ∀ e1 ∈ es, (g1.adjacency e1.source).isSome = true := by
      intro e1 he1
      rw [hadj1]
      split
      · rfl
      · exact hsrc e1 (List.mem_cons_of_mem _ he1)
    obtain ⟨g2, hrest, hnp2, hkeys2, hadj2⟩ := ih g1 hnp1 hsrc1
    refine ⟨g2, ?_, hnp2, hkeys2.trans hkeys1, ?_⟩
    · simp only [addAdjacencies, addAdjacency]
      rw [GraphObject.get_of_adjacency h hxs]
      simp only [JSValue.truthy, if_true, hpush, Completion.bind]
      exact hrest
    · intro u
      rw [hadj2, hadj1]
      by_cases hu : u = e.source
      · subst hu
        simp [hxs, List.filter_cons]
      · have hu1 : ¬ e.source = u := fun h => hu h.symm
        simp only [hu, if_false, List.filter_cons, hu1, decide_False, Bool.false_eq_true]

theorem initGraph_foldl :
    ∀ (nodes : List Node) (g : GraphObject), g.NoProtoOwn →
      (nodes.foldl (fun g node => g.assignEmpty node.id) g).NoProtoOwn ∧
      (∀ u, (nodes.foldl (fun g node => g.assignEmpty node.id) g).adjacency u =
        if u ∈ nodes.map (fun n => n.id) then some [] else g.adjacency u) ∧
      (∀ u, u ∈ (nodes.foldl (fun g node => g.assignEmpty node.id) g).own.map Prod.fst ↔
        u ∈ g.own.map Prod.fst ∨ (u ∈ nodes.map (fun n => n.id) ∧ u ≠ "__proto__")) := by
  intro nodes
  induction nodes with
  | nil =>
    intro g h
    exact ⟨h, by simp, by simp⟩
  | cons n ns ih =>
    intro g h
    obtain ⟨h1, h2, h3⟩ := ih (g.assignEmpty n.id) (GraphObject.noProtoOwn_assignEmpty h n.id)
    simp only [List.foldl_cons]
    refine ⟨h1, ?_, ?_⟩
    · intro u
      rw [h2, GraphObject.adjacency_assignEmpty]
      by_cases hu : u = n.id
      · simp [hu]
      · simp [hu]
    · intro u
      rw [h3, GraphObject.keys_assignEmpty]
      simp only [List.map_cons, List.mem_cons]
      constructor
      · rintro ((h | ⟨rfl, hne⟩) | ⟨h, hne⟩)
        · exact Or.inl h
        · exact Or.inr ⟨Or.inl rfl, hne⟩
        · exact Or.inr ⟨Or.inr h, hne⟩
      · rintro (h | ⟨rfl | h, hne⟩)
        · exact Or.inl (Or.inl h)
        · exact Or.inl (Or.inr ⟨rfl, hne⟩)
        · exact Or.inr ⟨h, hne⟩

theorem GraphObject.mem_keys {g : GraphObject} {k : String} :
    k ∈ g.keys ↔ k ∈ g.own.map Prod.fst := by
  unfold GraphObject.keys
  simp only [List.mem_append, List.mem_map, List.mem_insertionSort, List.mem_filterMap,
    List.mem_filter]
  constructor
  · rintro (⟨n, ⟨k1, hk1, hn⟩, rfl⟩ | ⟨h, _⟩)
    · rw [arrayIndex?_eq_some hn]
      exact hk1
    · exact h
  · intro h
    cases hi : arrayIndex? k with
    | none => exact Or.inr ⟨h, by simp⟩
    | some n => exact Or.inl ⟨n, ⟨k, h, hi⟩, arrayIndex?_eq_some hi⟩

theorem GraphObject.noProtoOwn_empty : GraphObject.empty.NoProtoOwn := by
  intro kv hkv
  cases hkv

theorem unvisitedCount_init_le (U : List String) : unvisitedCount U ⟨[], []⟩ ≤ U.length := by
  unfold unvisitedCount
  simp only [List.toFinset_nil, Finset.sdiff_empty]
  exact List.toFinset_card_le U

theorem dfsBudget_gt (nodes : List Node) (edges : List Edge) :
    nodes.length < dfsBudget nodes edges := by
  unfold dfsBudget
  omega

theorem finished_init (R : String → String → Prop) : Finished R ⟨[], []⟩ := by
  intro u hu
  cases hu

/-- On a graph whose edges all start and end at nodes of the list, `hasCycle`
returns; it returns `true` only if the graph has a directed cycle, and `false`
only if no node with an id other than `"__proto__"` lies on a cycle. -/
theorem hasCycle_closed (nodes : List Node) (edges : List Edge) (hc : EdgesClosed nodes edges) :
    ∃ b, hasCycle nodes edges = .ok b ∧ (b = true → HasDirectedCycle edges) ∧
      (b = false → ∀ n ∈ nodes, n.id ≠ "__proto__" →
        ¬ Relation.TransGen (EdgeRel edges) n.id n.id) := by
  obtain ⟨hnp0, hadj0, hkeys0⟩ := initGraph_foldl nodes GraphObject.empty GraphObject.noProtoOwn_empty
  have hsrc : ∀ e ∈ edges, ((initGraph nodes).adjacency e.source).isSome = true := by
    intro e he
    unfold initGraph
    rw [hadj0]
    obtain ⟨n, hn, hne⟩ := (hc e he).1
    have : e.source ∈ nodes.map (fun n => n.id) := List.mem_map.2 ⟨n, hn, hne⟩
    simp [this]
  obtain ⟨g1, hbuild, hnp1, hkeys1, hadj1⟩ :=
    addAdjacencies_closed edges (initGraph nodes) hnp0 hsrc
  have hadj : ∀ u ∈ nodes.map (fun n => n.id),
      ∃ nbrs, (g1.get u).iterate = some nbrs ∧ ∀ w, w ∈ nbrs ↔ EdgeRel edges u w := by
    intro u hu
    have h1 : g1.adjacency u =
        some ((edges.filter (fun e => e.source = u)).map (fun e => e.target)) := by
      rw [hadj1]
      unfold initGraph
      rw [hadj0]
      simp [hu]
    refine ⟨_, by rw [GraphObject.get_of_adjacency hnp1 h1]; rfl, ?_⟩
    intro w
    simp only [List.mem_map, List.mem_filter, decide_eq_true_eq, EdgeRel]
    constructor
    · rintro ⟨e, ⟨he, hs⟩, ht⟩
      exact ⟨e, he, hs, ht⟩
    · rintro ⟨e, he, hs, ht⟩
      exact ⟨e, ⟨he, hs⟩, ht⟩
  have hclosed : ∀ u w, EdgeRel edges u w → w ∈ nodes.map (fun n => n.id) := by
    rintro u w ⟨e, he, _, rfl⟩
    obtain ⟨n, hn, hne⟩ := (hc e he).2
    exact List.mem_map.2 ⟨n, hn, hne⟩
  have hkeys : ∀ k, k ∈ g1.keys ↔ k ∈ nodes.map (fun n => n.id) ∧ k ≠ "__proto__" := by
    intro k
    rw [GraphObject.mem_keys, hkeys1]
    unfold initGraph
    rw [hkeys0]
    simp [GraphObject.empty]
  have hU : ∀ u ∈ nodes.map (fun n => n.id), ∀ nbrs, (g1.get u).iterate = some nbrs →
      ∀ w ∈ nbrs, w ∈ nodes.map (fun n => n.id) := by
    intro u hu nbrs hit w hw
    obtain ⟨nbrs1, hit1, hnb⟩ := hadj u hu
    rw [hit1] at hit
    cases hit
    exact hclosed u w ((hnb w).1 hw)
  have hbud := someRoot_budget g1 (nodes.map (fun n => n.id)) (dfsBudget nodes edges) hU g1.keys
    ⟨[], []⟩ (fun k hk => ((hkeys k).1 hk).1)
    (lt_of_le_of_lt (unvisitedCount_init_le _) (by simpa using dfsBudget_gt nodes edges))
  have hcor := someRoot_correct g1 (EdgeRel edges) (nodes.map (fun n => n.id))
    (dfsBudget nodes edges) hadj hclosed g1.keys ⟨[], []⟩ (fun k hk => ((hkeys k).1 hk).1)
    (fun x hx => by cases hx) (finished_init _)
  have hrun : hasCycle nodes edges = someRoot g1 (dfsBudget nodes edges) g1.keys ⟨[], []⟩ := by
    unfold hasCycle
    rw [hbuild]
    rfl
  rw [hrun]
  cases hres : someRoot g1 (dfsBudget nodes edges) g1.keys ⟨[], []⟩ with
  | ok b =>
    refine ⟨b, rfl, (hcor.2 b hres).1, ?_⟩
    intro hb n hn hne
    exact (hcor.2 b hres).2 hb n.id ((hkeys n.id).2 ⟨List.mem_map.2 ⟨n, hn, rfl⟩, hne⟩)
  | typeError => exact absurd hres hcor.1
  | outOfFuel => exact absurd hres hbud

theorem source_of_transGen {edges : List Edge} {u v : String}
    (h : Relation.TransGen (EdgeRel edges) u v) : ∃ e ∈ edges, e.source = u := by
  obtain ⟨w, ⟨e, he, hs, _⟩, _⟩ := Relation.TransGen.head'_iff.1 h
  exact ⟨e, he, hs⟩

/-- On a graph whose edges start and end at nodes and that has no node called
`"__proto__"`, `hasCycle` decides whether the graph has a directed cycle. -/
theorem hasCycle_iff (nodes : List Node) (edges : List Edge) (hc : EdgesClosed nodes edges)
    (hp : ∀ n ∈ nodes, n.id ≠ "__proto__") :
    ∃ b, hasCycle nodes edges = .ok b ∧ (b = true ↔ HasDirectedCycle edges) := by
  obtain ⟨b, hb, h1, h2⟩ := hasCycle_closed nodes edges hc
  refine ⟨b, hb, h1, ?_⟩
  rintro ⟨v, hv⟩
  cases b with
  | true => rfl
  | false =>
    obtain ⟨e, he, hs⟩ := source_of_transGen hv
    obtain ⟨n, hn, hne⟩ := (hc e he).1
    have hv1 : v = n.id := by rw [hne, hs]
    subst hv1
    exact absurd hv (h2 rfl n hn (hp n hn))

theorem cycle_mem_errors_iff {nodes : List Node} {edges : List Edge} {r : ValidationResult}
    {cyc : Bool}
    (h : r.errors = minSizeIssues nodes ++ notConnectedIssues nodes edges ++ cycleIssues cyc) :
    "Cycle detected in graph" ∈ r.errors ↔ cyc = true := by
  rw [h]
  simp only [List.mem_append]
  have h1 : "Cycle detected in graph" ∉ minSizeIssues nodes := by
    unfold minSizeIssues
    split
    · decide
    · simp
  have h2 : "Cycle detected in graph" ∉ notConnectedIssues nodes edges := by
    unfold notConnectedIssues
    split
    · simp only [List.mem_singleton]
      exact fun h => notConnectedMessage_ne_cycle _ h.symm
    · simp
  cases cyc with
  | true => simp [cycleIssues]
  | false => simp [cycleIssues, h1, h2]

/-! ## The budget suffices on every input -/

theorem targetStrings_length (edges : List Edge) :
    (targetStrings edges).length = (edges.map (fun e => e.target.length + 1)).sum := by
  induction edges with
  | nil => rfl
  | cons e es ih =>
    simp only [targetStrings, List.length_cons, List.length_append, List.length_map,
      List.map_cons, List.sum_cons]
    rw [ih]
    have hlen : e.target.toList.length = e.target.length := rfl
    omega

theorem mem_targetStrings {edges : List Edge} {e : Edge} (he : e ∈ edges) :
    e.target ∈ targetStrings edges ∧
      ∀ c ∈ e.target.toList, String.singleton c ∈ targetStrings edges := by
  induction edges with
  | nil => cases he
  | cons e1 es ih =>
    simp only [targetStrings, List.mem_cons, List.mem_append, List.mem_map]
    rcases List.mem_cons.1 he with rfl | he
    · exact ⟨Or.inl rfl, fun c hc => Or.inr (Or.inl ⟨c, hc, rfl⟩)⟩
    · exact ⟨Or.inr (Or.inr (ih he).1), fun c hc => Or.inr (Or.inr ((ih he).2 c hc))⟩

theorem GraphObject.targetsIn_assignEmpty {g : GraphObject} {T : List String}
    (h : g.TargetsIn T) (k : String) : (g.assignEmpty k).TargetsIn T := by
  unfold GraphObject.assignEmpty
  by_cases hk : k = "__proto__"
  · rw [if_pos hk]
    refine ⟨h.1, ?_⟩
    intro p hp w hw
    cases hp
    cases hw
  · rw [if_neg hk]
    split
    · refine ⟨?_, h.2⟩
      intro kv hkv w hw
      simp only [List.mem_map] at hkv
      obtain ⟨kv0, hkv0, rfl⟩ := hkv
      split at hw
      · cases hw
      · exact h.1 kv0 hkv0 w hw
    · refine ⟨?_, h.2⟩
      intro kv hkv w hw
      simp only [List.mem_append, List.mem_singleton] at hkv
      rcases hkv with hkv | rfl
      · exact h.1 kv hkv w hw
      · cases hw

theorem GraphObject.targetsIn_push {g g1 : GraphObject} {T : List String} {k t : String}
    (h : g.TargetsIn T) (ht : t ∈ T) (hp : g.push k t = .ok g1) :
    g1.TargetsIn T ∧ g1.own.map Prod.fst = g.own.map Prod.fst := by
  unfold GraphObject.push at hp
  split at hp
  · cases hp
    refine ⟨⟨?_, h.2⟩, map_fst_map_update (fun v => v ++ [t]) k g.own⟩
    intro kv hkv w hw
    simp only [List.mem_map] at hkv
    obtain ⟨kv0, hkv0, rfl⟩ := hkv
    split at hw
    · simp only [List.mem_append, List.mem_singleton] at hw
      rcases hw with hw | rfl
      · exact h.1 kv0 hkv0 w hw
      · exact ht
    · exact h.1 kv0 hkv0 w hw
  · split at hp
    · rename_i p hproto
      split at hp
      · cases hp
        refine ⟨⟨h.1, ?_⟩, rfl⟩
        intro p1 hp1 w hw
        cases hp1
        simp only [List.mem_append, List.mem_singleton] at hw
        rcases hw with hw | rfl
        · exact h.2 p hproto w hw
        · exact ht
      · cases hp
    · cases hp

theorem addAdjacencies_targetsIn {T : List String} :
    ∀ (edges : List Edge) (g g1 : GraphObject), (∀ e ∈ edges, e.target ∈ T) → g.TargetsIn T →
      addAdjacencies edges g = .ok g1 →
      g1.TargetsIn T ∧ g1.own.map Prod.fst = g.own.map Prod.fst := by
  intro edges
  induction edges with
  | nil =>
    intro g g1 _ h hrun
    cases hrun
    exact ⟨h, rfl⟩
  | cons e es ih =>
    intro g g1 ht h hrun
    simp only [addAdjacencies, addAdjacency] at hrun
    split at hrun
    · cases hpush : g.push e.source e.target with
      | ok g2 =>
        rw [hpush] at hrun
        have h2 := GraphObject.targetsIn_push h (ht e (List.mem_cons_self _ _)) hpush
        have h3 := ih g2 g1 (fun e1 he1 => ht e1 (List.mem_cons_of_mem _ he1)) h2.1 hrun
        exact ⟨h3.1, h3.2.trans h2.2⟩
      | typeError => rw [hpush] at hrun; cases hrun
      | outOfFuel => rw [hpush] at hrun; cases hrun
    · exact ih g g1 (fun e1 he1 => ht e1 (List.mem_cons_of_mem _ he1)) h hrun

theorem GraphObject.push_ne_outOfFuel (g : GraphObject) (k t : String) :
    g.push k t ≠ .outOfFuel := by
  unfold GraphObject.push
  split
  · simp
  · split
    · split <;> simp
    · simp

theorem addAdjacencies_ne_outOfFuel :
    ∀ (edges : List Edge) (g : GraphObject), addAdjacencies edges g ≠ .outOfFuel := by
  intro edges
  induction edges with
  | nil => intro g; simp [addAdjacencies]
  | cons e es ih =>
    intro g
    simp only [addAdjacencies, addAdjacency]
    split
    · cases hpush : g.push e.source e.target with
      | ok g2 => exact ih g2
      | typeError => simp [Completion.bind]
      | outOfFuel => exact absurd hpush (GraphObject.push_ne_outOfFuel _ _ _)
    · exact ih g

theorem initGraph_targetsIn (T : List String) :
    ∀ (nodes : List Node) (g : GraphObject), g.TargetsIn T →
      (nodes.foldl (fun g node => g.assignEmpty node.id) g).TargetsIn T := by
  intro nodes
  induction nodes with
  | nil => intro g h; exact h
  | cons n ns ih =>
    intro g h
    exact ih _ (GraphObject.targetsIn_assignEmpty h n.id)

theorem GraphObject.iterate_get_subset {g : GraphObject} {T : List String} (h : g.TargetsIn T)
    {u : String} {nbrs : List String} (hit : (g.get u).iterate = some nbrs) :
    ∀ w ∈ nbrs, w ∈ T ∨ ∃ t ∈ T, ∃ c ∈ t.toList, w = String.singleton c := by
  unfold GraphObject.get at hit
  cases hl : List.lookup u g.own with
  | some xs =>
    simp only [hl, JSValue.iterate, Option.some.injEq] at hit
    subst hit
    intro w hw
    exact Or.inl (h.1 _ (mem_of_lookup_eq_some hl) w hw)
  | none =>
    cases hp : g.proto with
    | none =>
      simp only [hl, hp] at hit
      split at hit <;> cases hit
    | some p =>
      simp only [hl, hp] at hit
      by_cases h1 : u = "__proto__"
      · simp only [h1, if_true, JSValue.iterate, Option.some.injEq] at hit
        subst hit
        intro w hw
        exact Or.inl (h.2 p hp w hw)
      · rw [if_neg h1] at hit
        by_cases h2 : u = "length"
        · rw [if_pos h2] at hit
          cases hit
        · rw [if_neg h2] at hit
          cases hs : (arrayIndex? u).bind (fun i => p.get? i) with
          | some s =>
            simp only [hs, JSValue.iterate, Option.some.injEq] at hit
            subst hit
            intro w hw
            simp only [List.mem_map] at hw
            obtain ⟨c, hc, rfl⟩ := hw
            obtain ⟨i, _, hi⟩ := Option.bind_eq_some.1 hs
            exact Or.inr ⟨s, h.2 p hp s (List.get?_mem hi), c, hc, rfl⟩
          | none =>
            simp only [hs] at hit
            split at hit <;> cases hit

theorem targetStrings_chars {edges : List Edge} {t : String} (ht : t ∈ targetStrings edges) :
    ∀ c ∈ t.toList, String.singleton c ∈ targetStrings edges := by
  induction edges with
  | nil => cases ht
  | cons e es ih =>
    simp only [targetStrings, List.mem_cons, List.mem_append, List.mem_map] at ht ⊢
    rcases ht with rfl | ⟨c1, hc1, rfl⟩ | ht
    · exact fun c hc => Or.inr (Or.inl ⟨c, hc, rfl⟩)
    · intro c hc
      have hc2 : c = c1 := by
        have : (String.singleton c1).toList = [c1] := rfl
        rw [this] at hc
        simpa using hc
      subst hc2
      exact Or.inr (Or.inl ⟨c, hc1, rfl⟩)
    · exact fun c hc => Or.inr (Or.inr (ih ht c hc))

/-- The recursion budget that `hasCycle` passes to `dfs` is never exhausted. -/
theorem hasCycle_ne_outOfFuel (nodes : List Node) (edges : List Edge) :
    hasCycle nodes edges ≠ .outOfFuel := by
  unfold hasCycle
  cases hbuild : addAdjacencies edges (initGraph nodes) with
  | ok g1 =>
    simp only [Completion.bind]
    have h0 : (initGraph nodes).TargetsIn (targetStrings edges) :=
      initGraph_targetsIn _ nodes GraphObject.empty
        ⟨fun kv hkv => (by cases hkv), fun p hp => (by cases hp)⟩
    obtain ⟨hT, hkeys1⟩ := addAdjacencies_targetsIn edges (initGraph nodes) g1
      (fun e he => (mem_targetStrings he).1) h0 hbuild
    obtain ⟨_, _, hkeys0⟩ :=
      initGraph_foldl nodes GraphObject.empty GraphObject.noProtoOwn_empty
    apply someRoot_budget g1 (nodes.map (fun n => n.id) ++ targetStrings edges)
    · intro u _ nbrs hit w hw
      rcases GraphObject.iterate_get_subset hT hit w hw with h | ⟨t, ht, c, hc, rfl⟩
      · exact List.mem_append_right _ h
      · exact List.mem_append_right _ (targetStrings_chars ht c hc)
    · intro k hk
      rw [GraphObject.mem_keys, hkeys1] at hk
      unfold initGraph at hk
      rw [hkeys0] at hk
      rcases hk with hk | hk
      · cases hk
      · exact List.mem_append_left _ hk.1
    · apply lt_of_le_of_lt (unvisitedCount_init_le _)
      rw [List.length_append, List.length_map, targetStrings_length]
      unfold dfsBudget
      omega
  | typeError => simp [Completion.bind]
  | outOfFuel => exact absurd hbuild (addAdjacencies_ne_outOfFuel _ _)

/-- On every input `validateDAG` returns or throws: the recursion budget of the
embedding is never the reason for its outcome. -/
theorem validateDAG_ne_outOfFuel (nodes : List Node) (edges : List Edge) :
    validateDAG nodes edges ≠ .outOfFuel := by
  unfold validateDAG
  cases hc : hasCycle nodes edges with
  | ok cyc => simp [Completion.bind]
  | typeError => simp [Completion.bind]
  | outOfFuel => exact absurd hc (hasCycle_ne_outOfFuel nodes edges)

/-! ## Issue lists -/

theorem minSize_mem_errors_iff {nodes : List Node} {edges : List Edge} {r : ValidationResult}
    {cyc : Bool}
    (h : r.errors = minSizeIssues nodes ++ notConnectedIssues nodes edges ++ cycleIssues cyc) :
    "At least 2 nodes required" ∈ r.errors ↔ nodes.length < 2 := by
  rw [h]
  simp only [List.mem_append]
  have h2 : "At least 2 nodes required" ∉ notConnectedIssues nodes edges := by
    unfold notConnectedIssues
    split
    · simp only [List.mem_singleton]
      exact fun h => notConnectedMessage_ne_minSize _ h.symm
    · simp
  have h3 : "At least 2 nodes required" ∉ cycleIssues cyc := by
    unfold cycleIssues
    split
    · decide
    · simp
  unfold minSizeIssues
  by_cases hlen : nodes.length < 2
  · simp [hlen]
  · simp [hlen, h2, h3]

theorem notConnected_mem_errors_iff {nodes : List Node} {edges : List Edge}
    {r : ValidationResult} {cyc : Bool}
    (h : r.errors = minSizeIssues nodes ++ notConnectedIssues nodes edges ++ cycleIssues cyc)
    (j : Nat) :
    notConnectedMessage j ∈ r.errors ↔
      j = isolatedNodeCount nodes edges ∧ 0 < isolatedNodeCount nodes edges := by
  rw [h]
  simp only [List.mem_append]
  have h1 : notConnectedMessage j ∉ minSizeIssues nodes := by
    unfold minSizeIssues
    split
    · simp only [List.mem_singleton]
      exact notConnectedMessage_ne_minSize j
    · simp
  have h3 : notConnectedMessage j ∉ cycleIssues cyc := by
    unfold cycleIssues
    split
    · simp only [List.mem_singleton]
      exact notConnectedMessage_ne_cycle j
    · simp
  unfold notConnectedIssues
  by_cases hk : 0 < isolatedNodeCount nodes edges
  · simp only [h1, h3, hk, if_true, List.mem_singleton, false_or, or_false, and_true]
    exact ⟨notConnectedMessage_injective, fun e => by rw [e]⟩
  · simp [h1, h3, hk]

theorem errors_sublist {nodes : List Node} {edges : List Edge} {r : ValidationResult}
    {cyc : Bool}
    (h : r.errors = minSizeIssues nodes ++ notConnectedIssues nodes edges ++ cycleIssues cyc) :
    r.errors.Sublist ["At least 2 nodes required",
      notConnectedMessage (isolatedNodeCount nodes edges), "Cycle detected in graph"] := by
  rw [h]
  have e : ["At least 2 nodes required",
      notConnectedMessage (isolatedNodeCount nodes edges), "Cycle detected in graph"] =
      ["At least 2 nodes required"] ++ [notConnectedMessage (isolatedNodeCount nodes edges)]
        ++ ["Cycle detected in graph"] := rfl
  rw [e]
  refine List.Sublist.append (List.Sublist.append ?_ ?_) ?_
  · unfold minSizeIssues
    split
    · exact List.Sublist.refl _
    · exact List.nil_sublist _
  · unfold notConnectedIssues
    split
    · exact List.Sublist.refl _
    · exact List.nil_sublist _
  · unfold cycleIssues
    split
    · exact List.Sublist.refl _
    · exact List.nil_sublist _

theorem errors_nodup {nodes : List Node} {edges : List Edge} {r : ValidationResult}
    {cyc : Bool}
    (h : r.errors = minSizeIssues nodes ++ notConnectedIssues nodes edges ++ cycleIssues cyc) :
    r.errors.Nodup := by
  apply List.Nodup.sublist (errors_sublist h)
  simp only [List.nodup_cons, List.mem_cons, List.mem_singleton, List.not_mem_nil,
    not_false_eq_true, List.nodup_nil, and_true, not_or, or_false]
  exact ⟨⟨fun e => notConnectedMessage_ne_minSize _ e.symm, by decide⟩,
    notConnectedMessage_ne_cycle _⟩

/-- With no edges `hasCycle` returns `false`. -/
theorem hasCycle_no_edges (nodes : List Node) : hasCycle nodes [] = .ok false := by
  obtain ⟨b, hb, h1, _⟩ := hasCycle_closed nodes [] (fun e he => by cases he)
  cases b with
  | false => exact hb
  | true =>
    obtain ⟨v, hv⟩ := h1 rfl
    obtain ⟨e, he, _⟩ := source_of_transGen hv
    cases he

theorem isolatedNodeCount_no_edges (nodes : List Node) :
    isolatedNodeCount nodes [] = nodes.length := by
  unfold isolatedNodeCount
  rw [List.countP_eq_length]
  intro n _
  simp

theorem isolatedNodeCount_eq_zero {nodes : List Node} {edges : List Edge}
    (h : ∀ n ∈ nodes, ∃ e ∈ edges, e.source = n.id ∨ e.target = n.id) :
    isolatedNodeCount nodes edges = 0 := by
  unfold isolatedNodeCount
  rw [List.countP_eq_zero]
  intro n hn
  obtain ⟨e, he, h1⟩ := h n hn
  simp only [decide_eq_true_eq, not_forall]
  refine ⟨e, he, ?_⟩
  rcases h1 with h1 | h1
  · exact fun h2 => h2.1 h1
  · exact fun h2 => h2.2 h1

/-! ## Claims about `validateDAG` -/

/-- C1: for every list of nodes and every list of edges whose sources and targets
are ids of nodes of the list, `validateDAG` returns and its issue list contains
"Cycle detected in graph" if and only if the directed graph has a directed cycle
(self-loops included). The node ids are those the editor issues, `node-<n>`, or
more generally any strings other than `"__proto__"`, which the editor never
issues. The graph A→B→C→A reports a cycle and the graph A→B→C does not. -/
theorem validateDAG_cycle_iff :
    (∀ (nodes : List Node) (edges : List Edge), EdgesClosed nodes edges →
      (∀ n ∈ nodes, n.id ≠ "__proto__") →
      ∃ r, validateDAG nodes edges = .ok r ∧
        ("Cycle detected in graph" ∈ r.errors ↔ HasDirectedCycle edges)) ∧
    (∀ (nodes : List Node) (edges : List Edge), EdgesClosed nodes edges →
      (∀ n ∈ nodes, ∃ k : Nat, n.id = "node-" ++ toString k) →
      ∃ r, validateDAG nodes edges = .ok r ∧
        ("Cycle detected in graph" ∈ r.errors ↔ HasDirectedCycle edges)) ∧
    (∃ r, validateDAG [mkNode "A", mkNode "B", mkNode "C"]
        [mkEdge "A" "B", mkEdge "B" "C", mkEdge "C" "A"] = .ok r ∧
      "Cycle detected in graph" ∈ r.errors) ∧
    (∃ r, validateDAG [mkNode "A", mkNode "B", mkNode "C"]
        [mkEdge "A" "B", mkEdge "B" "C"] = .ok r ∧
      "Cycle detected in graph" ∉ r.errors) := by
  have main : ∀ (nodes : List Node) (edges : List Edge), EdgesClosed nodes edges →
      (∀ n ∈ nodes, n.id ≠ "__proto__") →
      ∃ r, validateDAG nodes edges = .ok r ∧
        ("Cycle detected in graph" ∈ r.errors ↔ HasDirectedCycle edges) := by
    intro nodes edges hc hp
    obtain ⟨b, hb, hiff⟩ := hasCycle_iff nodes edges hc hp
    obtain ⟨r, hr⟩ : ∃ r, validateDAG nodes edges = .ok r := by
      unfold validateDAG
      rw [hb]
      exact ⟨_, rfl⟩
    refine ⟨r, hr, ?_⟩
    obtain ⟨cyc, hcyc, herr, _⟩ := (validateDAG_eq_ok_iff nodes edges r).1 hr
    rw [hb] at hcyc
    cases hcyc
    rw [cycle_mem_errors_iff herr]
    exact hiff
  refine ⟨main, ?_, ⟨⟨false, ["Cycle detected in graph"]⟩, by decide, by decide⟩,
    ⟨⟨true, []⟩, by decide, by decide⟩⟩
  intro nodes edges hc hids
  apply main nodes edges hc
  intro n hn hproto
  obtain ⟨k, hk⟩ := hids n hn
  rw [hk] at hproto
  have h1 := congrArg String.data hproto
  rw [String.data_append] at h1
  have h2 : some 'n' = some '_' := congrArg List.head? h1
  exact absurd h2 (by decide)

/-- C1, witness: the two-node graph A→B. -/
theorem validateDAG_cycle_iff_witness :
    EdgesClosed [mkNode "A", mkNode "B"] [mkEdge "A" "B"] ∧
    (∀ n ∈ [mkNode "A", mkNode "B"], n.id ≠ "__proto__") ∧
    ∃ r, validateDAG [mkNode "A", mkNode "B"] [mkEdge "A" "B"] = .ok r ∧
      ("Cycle detected in graph" ∈ r.errors ↔ HasDirectedCycle [mkEdge "A" "B"]) :=
  ⟨by unfold EdgesClosed; decide, by decide,
    validateDAG_cycle_iff.1 [mkNode "A", mkNode "B"] [mkEdge "A" "B"]
      (by unfold EdgesClosed; decide) (by decide)⟩

/-- Why the node ids are taken to differ from `"__proto__"`: the adjacency map is
a plain object, and a node of that id, which the editor never issues, is not
among the roots of the search. With the nodes `"__proto__"` and `"B"` and the
edges `__proto__ → __proto__` and `__proto__ → B` the self-loop is not reported. -/
theorem validateDAG_proto_id_not_root :
    EdgesClosed [mkNode "__proto__", mkNode "B"]
      [mkEdge "__proto__" "__proto__", mkEdge "__proto__" "B"] ∧
    HasDirectedCycle [mkEdge "__proto__" "__proto__", mkEdge "__proto__" "B"] ∧
    validateDAG [mkNode "__proto__", mkNode "B"]
      [mkEdge "__proto__" "__proto__", mkEdge "__proto__" "B"] = .ok ⟨true, []⟩ :=
  ⟨by unfold EdgesClosed; decide,
    ⟨"__proto__", Relation.TransGen.single ⟨mkEdge "__proto__" "__proto__", by decide, rfl, rfl⟩⟩,
    by decide⟩

/-- C2, failing input: with the single node `node-1` and an edge from `node-1` to
`node-2`, which is not a node, `validateDAG` does not return: `dfs("node-2")` iterates
over `graph["node-2"]`, which is `undefined`, and a `TypeError` is thrown. -/
theorem validateDAG_dangling_target_throws :
    validateDAG [mkNode "node-1"] [mkEdge "node-1" "node-2"] = .typeError := by
  decide

/-- C3: for every list of fewer than 2 nodes and every list of edges on which
`validateDAG` returns, `isValid` is false and the issue list includes "At least 2
nodes required"; for the empty graph the issue list is exactly that message. -/
theorem validateDAG_min_size :
    (∀ (nodes : List Node) (edges : List Edge) (r : ValidationResult), nodes.length < 2 →
      validateDAG nodes edges = .ok r →
      r.isValid = false ∧ "At least 2 nodes required" ∈ r.errors) ∧
    validateDAG [] [] = .ok ⟨false, ["At least 2 nodes required"]⟩ := by
  refine ⟨?_, by decide⟩
  intro nodes edges r hlen hr
  obtain ⟨cyc, _, herr, hvalid⟩ := (validateDAG_eq_ok_iff nodes edges r).1 hr
  have hmem := (minSize_mem_errors_iff herr).2 hlen
  refine ⟨?_, hmem⟩
  rw [hvalid]
  simp only [decide_eq_false_iff_not]
  intro he
  rw [he] at hmem
  cases hmem

/-- C3, witness: one node with a self-loop. -/
theorem validateDAG_min_size_witness :
    [mkNode "A"].length < 2 ∧
    validateDAG [mkNode "A"] [mkEdge "A" "A"] =
      .ok ⟨false, ["At least 2 nodes required", "Cycle detected in graph"]⟩ ∧
    (false = false ∧ "At least 2 nodes required" ∈
      ["At least 2 nodes required", "Cycle detected in graph"]) :=
  ⟨by decide, by decide,
    validateDAG_min_size.1 [mkNode "A"] [mkEdge "A" "A"]
      ⟨false, ["At least 2 nodes required", "Cycle detected in graph"]⟩ (by decide) (by decide)⟩

/-- C4: let `k` be the number of nodes whose id is neither source nor target of
an edge. On every graph whose edges start and end at nodes `validateDAG` returns,
and whenever it returns, its issue list contains "k node(s) not connected" exactly
once if `k > 0`, and a message "j node(s) not connected" only for `j = k > 0`. With
at least 2 nodes and no edges `k` is the node count, `isValid` is false and the
only issue is that message; two disjoint connected triples report nothing. -/
theorem validateDAG_not_connected :
    (∀ (nodes : List Node) (edges : List Edge), EdgesClosed nodes edges →
      ∃ r, validateDAG nodes edges = .ok r ∧
        (0 < isolatedNodeCount nodes edges →
          r.errors.count (notConnectedMessage (isolatedNodeCount nodes edges)) = 1) ∧
        (∀ j, notConnectedMessage j ∈ r.errors →
          j = isolatedNodeCount nodes edges ∧ 0 < isolatedNodeCount nodes edges)) ∧
    (∀ (nodes : List Node) (edges : List Edge) (r : ValidationResult),
      validateDAG nodes edges = .ok r →
      (0 < isolatedNodeCount nodes edges →
        r.errors.count (notConnectedMessage (isolatedNodeCount nodes edges)) = 1) ∧
      (∀ j, notConnectedMessage j ∈ r.errors →
        j = isolatedNodeCount nodes edges ∧ 0 < isolatedNodeCount nodes edges)) ∧
    (∀ nodes : List Node, 2 ≤ nodes.length →
      isolatedNodeCount nodes [] = nodes.length ∧
      validateDAG nodes [] = .ok ⟨false, [notConnectedMessage nodes.length]⟩) ∧
    validateDAG
      [mkNode "a1", mkNode "a2", mkNode "a3", mkNode "b1", mkNode "b2", mkNode "b3"]
      [mkEdge "a1" "a2", mkEdge "a2" "a3", mkEdge "b1" "b2", mkEdge "b2" "b3"]
      = .ok ⟨true, []⟩ := by
  have returned : ∀ (nodes : List Node) (edges : List Edge) (r : ValidationResult),
      validateDAG nodes edges = .ok r →
      (0 < isolatedNodeCount nodes edges →
        r.errors.count (notConnectedMessage (isolatedNodeCount nodes edges)) = 1) ∧
      (∀ j, notConnectedMessage j ∈ r.errors →
        j = isolatedNodeCount nodes edges ∧ 0 < isolatedNodeCount nodes edges) := by
    intro nodes edges r hr
    obtain ⟨cyc, _, herr, _⟩ := (validateDAG_eq_ok_iff nodes edges r).1 hr
    refine ⟨fun hk => ?_, fun j hj => (notConnected_mem_errors_iff herr j).1 hj⟩
    exact List.count_eq_one_of_mem (errors_nodup herr)
      ((notConnected_mem_errors_iff herr _).2 ⟨rfl, hk⟩)
  refine ⟨?_, returned, ?_, by decide⟩
  · intro nodes edges hc
    obtain ⟨b, hb, _⟩ := hasCycle_closed nodes edges hc
    obtain ⟨r, hr⟩ : ∃ r, validateDAG nodes edges = .ok r := by
      unfold validateDAG
      rw [hb]
      exact ⟨_, rfl⟩
    exact ⟨r, hr, returned nodes edges r hr⟩
  · intro nodes hlen
    refine ⟨isolatedNodeCount_no_edges nodes, ?_⟩
    rw [validateDAG_eq_ok_iff]
    refine ⟨false, hasCycle_no_edges nodes, ?_, ?_⟩
    · have h1 : ¬ nodes.length < 2 := by omega
      have h2 : 0 < nodes.length := by omega
      simp [minSizeIssues, notConnectedIssues, cycleIssues, isolatedNodeCount_no_edges, h1, h2]
    · simp

/-- C4, witness: three nodes and the edge A→B; the node C is the one that is
not connected. -/
theorem validateDAG_not_connected_witness :
    EdgesClosed [mkNode "A", mkNode "B", mkNode "C"] [mkEdge "A" "B"] ∧
    isolatedNodeCount [mkNode "A", mkNode "B", mkNode "C"] [mkEdge "A" "B"] = 1 ∧
    ∃ r, validateDAG [mkNode "A", mkNode "B", mkNode "C"] [mkEdge "A" "B"] = .ok r ∧
      (0 < isolatedNodeCount [mkNode "A", mkNode "B", mkNode "C"] [mkEdge "A" "B"] →
        r.errors.count (notConnectedMessage
          (isolatedNodeCount [mkNode "A", mkNode "B", mkNode "C"] [mkEdge "A" "B"])) = 1) ∧
      (∀ j, notConnectedMessage j ∈ r.errors →
        j = isolatedNodeCount [mkNode "A", mkNode "B", mkNode "C"] [mkEdge "A" "B"] ∧
        0 < isolatedNodeCount [mkNode "A", mkNode "B", mkNode "C"] [mkEdge "A" "B"]) :=
  ⟨by unfold EdgesClosed; decide, by decide,
    validateDAG_not_connected.1 [mkNode "A", mkNode "B", mkNode "C"] [mkEdge "A" "B"]
      (by unfold EdgesClosed; decide)⟩

/-- C5: for every input on which `validateDAG` returns, the issue list is a
sublist, in order and without repetition, of the messages of checks 1, 2 and 3;
each message is present exactly when its own check fails, whatever the other
checks found; and `isValid` is true if and only if the issue list is empty. -/
theorem validateDAG_issue_order (nodes : List Node) (edges : List Edge) (r : ValidationResult)
    (hr : validateDAG nodes edges = .ok r) :
    r.errors.Sublist ["At least 2 nodes required",
      notConnectedMessage (isolatedNodeCount nodes edges), "Cycle detected in graph"] ∧
    r.errors.Nodup ∧
    ("At least 2 nodes required" ∈ r.errors ↔ nodes.length < 2) ∧
    (notConnectedMessage (isolatedNodeCount nodes edges) ∈ r.errors ↔
      0 < isolatedNodeCount nodes edges) ∧
    ("Cycle detected in graph" ∈ r.errors ↔ hasCycle nodes edges = .ok true) ∧
    (r.isValid = true ↔ r.errors = []) := by
  obtain ⟨cyc, hcyc, herr, hvalid⟩ := (validateDAG_eq_ok_iff nodes edges r).1 hr
  refine ⟨errors_sublist herr, errors_nodup herr, minSize_mem_errors_iff herr, ?_, ?_, ?_⟩
  · rw [notConnected_mem_errors_iff herr]
    simp
  · rw [cycle_mem_errors_iff herr, hcyc]
    simp
  · rw [hvalid]
    simp

/-- C5, witness: two nodes, one of them isolated, the other with a self-loop. -/
theorem validateDAG_issue_order_witness :
    validateDAG [mkNode "A", mkNode "B"] [mkEdge "A" "A"] =
      .ok ⟨false, ["1 node(s) not connected", "Cycle detected in graph"]⟩ ∧
    ["1 node(s) not connected", "Cycle detected in graph"].Nodup :=
  ⟨by decide,
    (validateDAG_issue_order [mkNode "A", mkNode "B"] [mkEdge "A" "A"]
      ⟨false, ["1 node(s) not connected", "Cycle detected in graph"]⟩ (by decide)).2.1⟩

/-! ## The edit callbacks -/

theorem addNode_of_nonblank (s : EditorState) (rx ry : ℚ) (h : trim s.newNodeName ≠ "") :
    addNode s rx ry =
      { nodes := s.nodes ++ [⟨"node-" ++ toString s.nodeId, "custom",
          ⟨rx * 300 + 50, ry * 300 + 50⟩, s.newNodeName, false⟩]
        edges := s.edges
        nodeId := s.nodeId + 1
        newNodeName := ""
        showAddNodeModal := false } := by
  unfold addNode
  rw [if_neg h]

theorem addNode_of_blank (s : EditorState) (rx ry : ℚ) (h : trim s.newNodeName = "") :
    addNode s rx ry = s := by
  unfold addNode
  rw [if_pos h]

theorem not_hasDirectedCycle_single (e : Edge) (h : e.source ≠ e.target) :
    ¬ HasDirectedCycle [e] := by
  rintro ⟨v, hv⟩
  obtain ⟨w, ⟨e1, he1, hs1, _⟩, _⟩ := Relation.TransGen.head'_iff.1 hv
  obtain ⟨w2, _, ⟨e2, he2, _, ht2⟩⟩ := Relation.TransGen.tail'_iff.1 hv
  rw [List.mem_singleton] at he1 he2
  subst he1 he2
  exact h (hs1.trans ht2.symm)

/-- C6: for every graph with at least 2 nodes whose edges all start and end at
node ids, in which every node is an endpoint of some edge and which has no
directed cycle, `validateDAG` returns `isValid = true` and no issues; so does
the state reached from the empty editor by adding the nodes "ingest" and
"transform" and connecting the first to the second. -/
theorem validateDAG_valid :
    (∀ (nodes : List Node) (edges : List Edge), 2 ≤ nodes.length → EdgesClosed nodes edges →
      (∀ n ∈ nodes, ∃ e ∈ edges, e.source = n.id ∨ e.target = n.id) →
      ¬ HasDirectedCycle edges →
      validateDAG nodes edges = .ok ⟨true, []⟩) ∧
    (∀ rx1 ry1 rx2 ry2 : ℚ,
      (run addEdge EditorState.initial
        [.addNode "ingest" rx1 ry1, .addNode "transform" rx2 ry2]).nodes.map (fun n => n.id)
        = ["node-1", "node-2"] ∧
      validateDAG
        (run addEdge EditorState.initial
          [.addNode "ingest" rx1 ry1, .addNode "transform" rx2 ry2,
            .connect "node-1" "node-2"]).nodes
        (run addEdge EditorState.initial
          [.addNode "ingest" rx1 ry1, .addNode "transform" rx2 ry2,
            .connect "node-1" "node-2"]).edges
        = .ok ⟨true, []⟩) := by
  have general : ∀ (nodes : List Node) (edges : List Edge), 2 ≤ nodes.length →
      EdgesClosed nodes edges →
      (∀ n ∈ nodes, ∃ e ∈ edges, e.source = n.id ∨ e.target = n.id) →
      ¬ HasDirectedCycle edges →
      validateDAG nodes edges = .ok ⟨true, []⟩ := by
    intro nodes edges hlen hc hcov hacyc
    obtain ⟨b, hb, h1, _⟩ := hasCycle_closed nodes edges hc
    have hb0 : b = false := by
      cases b with
      | false => rfl
      | true => exact absurd (h1 rfl) hacyc
    subst hb0
    rw [validateDAG_eq_ok_iff]
    refine ⟨false, hb, ?_, by simp⟩
    have h2 : ¬ nodes.length < 2 := by omega
    simp [minSizeIssues, notConnectedIssues, cycleIssues, isolatedNodeCount_eq_zero hcov, h2]
  refine ⟨general, ?_⟩
  intro rx1 ry1 rx2 ry2
  have hid1 : "node-" ++ toString (1 : Nat) = "node-1" := by decide
  have hid2 : "node-" ++ toString (1 + 1 : Nat) = "node-2" := by decide
  have e2 : run addEdge EditorState.initial
      [.addNode "ingest" rx1 ry1, .addNode "transform" rx2 ry2] =
      ⟨[⟨"node-1", "custom", ⟨rx1 * 300 + 50, ry1 * 300 + 50⟩, "ingest", false⟩,
        ⟨"node-2", "custom", ⟨rx2 * 300 + 50, ry2 * 300 + 50⟩, "transform", false⟩],
        [], 3, "", false⟩ := by
    simp only [run, List.foldl, step]
    rw [addNode_of_nonblank (setNewNodeName EditorState.initial "ingest") rx1 ry1 (by decide)]
    rw [addNode_of_nonblank _ rx2 ry2 (by show trim "transform" ≠ ""; decide)]
    simp only [setNewNodeName, EditorState.initial, hid1, hid2, List.nil_append,
      List.singleton_append]
  have e3 : run addEdge EditorState.initial
      [.addNode "ingest" rx1 ry1, .addNode "transform" rx2 ry2, .connect "node-1" "node-2"] =
      ⟨[⟨"node-1", "custom", ⟨rx1 * 300 + 50, ry1 * 300 + 50⟩, "ingest", false⟩,
        ⟨"node-2", "custom", ⟨rx2 * 300 + 50, ry2 * 300 + 50⟩, "transform", false⟩],
        [mkEdge "node-1" "node-2"], 3, "", false⟩ := by
    have : run addEdge EditorState.initial
        [.addNode "ingest" rx1 ry1, .addNode "transform" rx2 ry2, .connect "node-1" "node-2"] =
        step addEdge (run addEdge EditorState.initial
          [.addNode "ingest" rx1 ry1, .addNode "transform" rx2 ry2])
          (.connect "node-1" "node-2") := rfl
    rw [this, e2]
    simp only [step, onConnect]
    rw [if_neg (by decide)]
    rfl
  rw [e2, e3]
  refine ⟨rfl, ?_⟩
  apply general
  · simp
  · intro e he
    rw [List.mem_singleton] at he
    subst he
    exact ⟨⟨_, List.mem_cons_self _ _, rfl⟩,
      ⟨_, List.mem_cons_of_mem _ (List.mem_cons_self _ _), rfl⟩⟩
  · intro n hn
    refine ⟨mkEdge "node-1" "node-2", List.mem_singleton.2 rfl, ?_⟩
    simp only [List.mem_cons, List.mem_singleton, List.not_mem_nil, or_false] at hn
    rcases hn with rfl | rfl
    · exact Or.inl rfl
    · exact Or.inr rfl
  · exact not_hasDirectedCycle_single _ (by decide)

/-- C6, witness: the chain A→B→C. -/
theorem validateDAG_valid_witness :
    validateDAG [mkNode "A", mkNode "B", mkNode "C"] [mkEdge "A" "B", mkEdge "B" "C"]
      = .ok ⟨true, []⟩ :=
  validateDAG_valid.1 [mkNode "A", mkNode "B", mkNode "C"] [mkEdge "A" "B", mkEdge "B" "C"]
    (by decide) (by unfold EdgesClosed; decide) (by decide)
    (by
      rintro ⟨v, hv⟩
      have key : ∀ a b, Relation.TransGen (EdgeRel [mkEdge "A" "B", mkEdge "B" "C"]) a b →
          (a = "A" ∧ (b = "B" ∨ b = "C")) ∨ (a = "B" ∧ b = "C") := by
        intro a b hab
        induction hab with
        | single h =>
          obtain ⟨e, he, hs, ht⟩ := h
          simp only [List.mem_cons, List.mem_singleton, List.not_mem_nil, or_false] at he
          rcases he with rfl | rfl
          · exact Or.inl ⟨hs.symm, Or.inl ht.symm⟩
          · exact Or.inr ⟨hs.symm, ht.symm⟩
        | tail _ h ih =>
          obtain ⟨e, he, hs, ht⟩ := h
          simp only [List.mem_cons, List.mem_singleton, List.not_mem_nil, or_false] at he
          rcases he with rfl | rfl
          · rcases ih with ⟨_, h1 | h1⟩ | ⟨_, h1⟩
            · rw [h1] at hs; exact absurd hs (by decide)
            · rw [h1] at hs; exact absurd hs (by decide)
            · rw [h1] at hs; exact absurd hs (by decide)
          · rcases ih with ⟨ha, _⟩ | ⟨_, h1⟩
            · exact Or.inl ⟨ha, Or.inr ht.symm⟩
            · rw [h1] at hs; exact absurd hs (by decide)
      rcases key v v hv with ⟨h1, h2 | h2⟩ | ⟨h1, h2⟩
      · rw [h1] at h2; exact absurd h2 (by decide)
      · rw [h1] at h2; exact absurd h2 (by decide)
      · rw [h1] at h2; exact absurd h2 (by decide))

/-- C7: `getLayoutedElements` returns a node list of the same length and order in
which the node at index `i` keeps every field but `position` and is placed at
`x = (i mod 3) * 200 + 100`, `y = floor(i / 3) * 100 + 50`; it returns the edge
list unchanged, and the positions do not depend on the edges. -/
theorem getLayoutedElements_grid (nodes : List Node) (edges : List Edge) :
    (getLayoutedElements nodes edges).nodes.length = nodes.length ∧
    (∀ (i : Nat) (n : Node), nodes[i]? = some n →
      (getLayoutedElements nodes edges).nodes[i]? =
        some ⟨n.id, n.type,
          ⟨((i % 3 : Nat) : ℚ) * 200 + 100, ((i / 3 : Nat) : ℚ) * 100 + 50⟩,
          n.label, n.selected⟩) ∧
    (getLayoutedElements nodes edges).edges = edges ∧
    (∀ edges1 : List Edge,
      (getLayoutedElements nodes edges1).nodes = (getLayoutedElements nodes edges).nodes) := by
  refine ⟨?_, ?_, rfl, fun _ => rfl⟩
  · simp [getLayoutedElements]
  · intro i n hn
    simp only [getLayoutedElements, List.getElem?_mapIdx, hn, Option.map_some', gridPosition]

/-- C7, witness: the fourth of four nodes starts the second row. -/
theorem getLayoutedElements_grid_witness :
    [mkNode "a", mkNode "b", mkNode "c", mkNode "d"][3]? = some (mkNode "d") ∧
    (getLayoutedElements [mkNode "a", mkNode "b", mkNode "c", mkNode "d"] []).nodes[3]? =
      some ⟨"d", "custom", ⟨((3 % 3 : Nat) : ℚ) * 200 + 100, ((3 / 3 : Nat) : ℚ) * 100 + 50⟩,
        "d", false⟩ :=
  ⟨rfl, (getLayoutedElements_grid [mkNode "a", mkNode "b", mkNode "c", mkNode "d"] []).2.1
    3 (mkNode "d") rfl⟩

theorem contains_selected_ids_nodes (nodes : List Node) (x : String) :
    ((nodes.filter (fun n => n.selected)).map (fun n => n.id)).contains x = true ↔
      ∃ n ∈ nodes, n.selected = true ∧ n.id = x := by
  simp only [List.contains_iff_exists_mem_beq, List.mem_map, List.mem_filter, beq_iff_eq]
  constructor
  · rintro ⟨y, ⟨n, ⟨hn, hs⟩, rfl⟩, hy⟩
    exact ⟨n, hn, hs, hy.symm⟩
  · rintro ⟨n, hn, hs, rfl⟩
    exact ⟨n.id, ⟨n, ⟨hn, hs⟩, rfl⟩, rfl⟩

theorem contains_selected_ids_edges (edges : List Edge) (x : String) :
    ((edges.filter (fun e => e.selected)).map (fun e => e.id)).contains x = true ↔
      ∃ e ∈ edges, e.selected = true ∧ e.id = x := by
  simp only [List.contains_iff_exists_mem_beq, List.mem_map, List.mem_filter, beq_iff_eq]
  constructor
  · rintro ⟨y, ⟨e, ⟨he, hs⟩, rfl⟩, hy⟩
    exact ⟨e, he, hs, hy.symm⟩
  · rintro ⟨e, he, hs, rfl⟩
    exact ⟨e.id, ⟨e, ⟨he, hs⟩, rfl⟩, rfl⟩

/-- C8: in every editor state, `deleteSelected` leaves exactly the nodes that
were not selected and exactly the edges that were not selected and neither start
nor end at a selected node. An editor state has unique node ids and unique edge
ids (§3); the proof needs less, that nodes sharing an id agree on `selected`,
and likewise edges. If all edges started and ended at present nodes before,
they do so afterwards. With nodes A, B, C, edges A→B, B→C and B selected, the
result is the nodes A, C and no edge. -/
theorem deleteSelected_cascade :
    (∀ s : EditorState,
      (∀ n ∈ s.nodes, ∀ m ∈ s.nodes, n.id = m.id → n.selected = m.selected) →
      (∀ e ∈ s.edges, ∀ f ∈ s.edges, e.id = f.id → e.selected = f.selected) →
      (deleteSelected s).nodes = s.nodes.filter (fun n => !n.selected) ∧
      (deleteSelected s).edges = s.edges.filter (fun e => !e.selected &&
        decide (∀ n ∈ s.nodes, n.selected = true → n.id ≠ e.source ∧ n.id ≠ e.target))) ∧
    (∀ s : EditorState, EdgesClosed s.nodes s.edges →
      EdgesClosed (deleteSelected s).nodes (deleteSelected s).edges) ∧
    ((deleteSelected ⟨[mkNode "A", { mkNode "B" with selected := true }, mkNode "C"],
        [mkEdge "A" "B", mkEdge "B" "C"], 4, "", false⟩).nodes.map (fun n => n.id) = ["A", "C"] ∧
      (deleteSelected ⟨[mkNode "A", { mkNode "B" with selected := true }, mkNode "C"],
        [mkEdge "A" "B", mkEdge "B" "C"], 4, "", false⟩).edges = []) := by
  refine ⟨?_, ?_, by decide, by decide⟩
  · intro s hn he
    constructor
    · show s.nodes.filter _ = _
      apply List.filter_congr
      intro n hmem
      rw [Bool.eq_iff_iff]
      simp only [Bool.not_eq_true', ← Bool.not_eq_true, contains_selected_ids_nodes]
      constructor
      · intro h hs
        exact h ⟨n, hmem, hs, rfl⟩
      · rintro h ⟨m, hm, hs, hid⟩
        exact h ((hn m hm n hmem hid).symm.trans hs)
    · show s.edges.filter _ = _
      apply List.filter_congr
      intro e hmem
      rw [Bool.eq_iff_iff]
      simp only [Bool.and_eq_true, Bool.not_eq_true', ← Bool.not_eq_true,
        contains_selected_ids_nodes, contains_selected_ids_edges, decide_eq_true_eq]
      constructor
      · rintro ⟨⟨h1, h2⟩, h3⟩
        refine ⟨fun hs => h1 ⟨e, hmem, hs, rfl⟩, fun n hnm hs => ⟨fun hid => h2 ⟨n, hnm, hs, hid⟩,
          fun hid => h3 ⟨n, hnm, hs, hid⟩⟩⟩
      · rintro ⟨h1, h2⟩
        refine ⟨⟨?_, ?_⟩, ?_⟩
        · rintro ⟨f, hf, hs, hid⟩
          exact h1 ((he f hf e hmem hid).symm.trans hs)
        · rintro ⟨n, hnm, hs, hid⟩
          exact (h2 n hnm hs).1 hid
        · rintro ⟨n, hnm, hs, hid⟩
          exact (h2 n hnm hs).2 hid
  · intro s hc e he
    have hmem : e ∈ s.edges := (List.mem_filter.1 he).1
    have hcond := (List.mem_filter.1 he).2
    simp only [Bool.and_eq_true, Bool.not_eq_true', ← Bool.not_eq_true,
      contains_selected_ids_nodes] at hcond
    obtain ⟨⟨_, hsrc⟩, htgt⟩ := hcond
    obtain ⟨⟨n, hn, hns⟩, ⟨m, hm, hmt⟩⟩ := hc e hmem
    refine ⟨⟨n, ?_, hns⟩, ⟨m, ?_, hmt⟩⟩
    · show n ∈ s.nodes.filter _
      rw [List.mem_filter]
      refine ⟨hn, ?_⟩
      simp only [Bool.not_eq_true', ← Bool.not_eq_true, contains_selected_ids_nodes]
      rintro ⟨k, hk, hs, hid⟩
      exact hsrc ⟨k, hk, hs, hid.trans hns⟩
    · show m ∈ s.nodes.filter _
      rw [List.mem_filter]
      refine ⟨hm, ?_⟩
      simp only [Bool.not_eq_true', ← Bool.not_eq_true, contains_selected_ids_nodes]
      rintro ⟨k, hk, hs, hid⟩
      exact htgt ⟨k, hk, hs, hid.trans hmt⟩

/-- C8, witness: the state with nodes A, B (selected), C and edges A→B, B→C. -/
theorem deleteSelected_cascade_witness :
    EdgesClosed [mkNode "A", { mkNode "B" with selected := true }, mkNode "C"]
      [mkEdge "A" "B", mkEdge "B" "C"] ∧
    ((deleteSelected ⟨[mkNode "A", { mkNode "B" with selected := true }, mkNode "C"],
        [mkEdge "A" "B", mkEdge "B" "C"], 4, "", false⟩).nodes =
      [mkNode "A", { mkNode "B" with selected := true }, mkNode "C"].filter
        (fun n => !n.selected) ∧
      (deleteSelected ⟨[mkNode "A", { mkNode "B" with selected := true }, mkNode "C"],
        [mkEdge "A" "B", mkEdge "B" "C"], 4, "", false⟩).edges =
      [mkEdge "A" "B", mkEdge "B" "C"].filter (fun e => !e.selected &&
        decide (∀ n ∈ [mkNode "A", { mkNode "B" with selected := true }, mkNode "C"],
          n.selected = true → n.id ≠ e.source ∧ n.id ≠ e.target))) ∧
    EdgesClosed
      (deleteSelected ⟨[mkNode "A", { mkNode "B" with selected := true }, mkNode "C"],
        [mkEdge "A" "B", mkEdge "B" "C"], 4, "", false⟩).nodes
      (deleteSelected ⟨[mkNode "A", { mkNode "B" with selected := true }, mkNode "C"],
        [mkEdge "A" "B", mkEdge "B" "C"], 4, "", false⟩).edges :=
  ⟨by unfold EdgesClosed; decide,
    deleteSelected_cascade.1
      ⟨[mkNode "A", { mkNode "B" with selected := true }, mkNode "C"],
        [mkEdge "A" "B", mkEdge "B" "C"], 4, "", false⟩
      (by decide) (by decide),
    deleteSelected_cascade.2.1
      ⟨[mkNode "A", { mkNode "B" with selected := true }, mkNode "C"],
        [mkEdge "A" "B", mkEdge "B" "C"], 4, "", false⟩
      (by unfold EdgesClosed; decide)⟩

/-- Why ids are taken to be unique: `deleteSelected` removes by id. Were two
nodes to share the id `"a"`, which no sequence of operations brings about, the
first selected and the second not, both would be removed. -/
theorem deleteSelected_removes_by_id :
    (deleteSelected ⟨[{ mkNode "a" with selected := true }, mkNode "a"], [], 1, "", false⟩).nodes
      = [] ∧
    (([{ mkNode "a" with selected := true }, mkNode "a"] : List Node).filter
      (fun n => !n.selected)).map (fun n => n.id) = ["a"] := by
  decide

/-- C9: `onConnect` with equal source and target changes nothing, whatever the
library function `addEdge` does: edges, edge count and nodes are as before. So
every edge that `onConnect` adds has a source different from its target. -/
theorem onConnect_self_loop :
    (∀ (addEdgeImpl : Connection → List Edge → List Edge) (s : EditorState) (a : String),
      onConnect addEdgeImpl s ⟨a, a⟩ = s) ∧
    (∀ (s : EditorState) (params : Connection) (e : Edge),
      e ∈ (onConnect addEdge s params).edges → e ∉ s.edges → e.source ≠ e.target) := by
  constructor
  · intro addEdgeImpl s a
    unfold onConnect
    rw [if_pos rfl]
  · intro s params e he hne
    unfold onConnect at he
    by_cases h : params.source = params.target
    · rw [if_pos h] at he
      exact absurd he hne
    · rw [if_neg h] at he
      simp only [addEdge, List.mem_append, List.mem_singleton] at he
      rcases he with he | rfl
      · exact absurd he hne
      · exact h

/-- C9, witness: connecting node-1 to node-2 in the initial state. -/
theorem onConnect_self_loop_witness :
    mkEdge "node-1" "node-2" ∈
      (onConnect addEdge EditorState.initial ⟨"node-1", "node-2"⟩).edges ∧
    mkEdge "node-1" "node-2" ∉ EditorState.initial.edges ∧
    (mkEdge "node-1" "node-2").source ≠ (mkEdge "node-1" "node-2").target :=
  ⟨by decide, by decide,
    onConnect_self_loop.2 EditorState.initial ⟨"node-1", "node-2"⟩ (mkEdge "node-1" "node-2")
      (by decide) (by decide)⟩

/-! ## Node ids -/

theorem nodeIdString_injective {a b : Nat}
    (h : "node-" ++ toString a = "node-" ++ toString b) : a = b := by
  apply toString_nat_injective
  have h1 := congrArg String.data h
  simp only [String.data_append] at h1
  exact String.ext (List.append_cancel_left h1)

theorem map_id_mapIdx (nodes : List Node) (f : Nat → Node → Node)
    (hf : ∀ i n, (f i n).id = n.id) :
    (nodes.mapIdx f).map (fun n => n.id) = nodes.map (fun n => n.id) := by
  apply List.ext_getElem?
  intro i
  simp only [List.getElem?_map, List.getElem?_mapIdx]
  cases nodes[i]? with
  | none => rfl
  | some n => simp [hf]

/-- What one operation does to the node ids and the id counter: `clearAll`
removes all nodes and resets the counter; every other operation keeps or
removes ids that are present, or adds the id `node-<counter>`, and does not
decrease the counter. -/
theorem step_nodeIds (addEdgeImpl : Connection → List Edge → List Edge) (s : EditorState)
    (op : Op) :
    ((step addEdgeImpl s op).nodeIds = [] ∧ op = .clearAll) ∨
    ((step addEdgeImpl s op).nodeIds.Sublist s.nodeIds ∧
      s.nodeId ≤ (step addEdgeImpl s op).nodeId) ∨
    ((step addEdgeImpl s op).nodeIds = s.nodeIds ++ ["node-" ++ toString s.nodeId] ∧
      (step addEdgeImpl s op).nodeId = s.nodeId + 1) := by
  cases op with
  | addNode label rx ry =>
    by_cases hb : trim label = ""
    · refine Or.inr (Or.inl ?_)
      simp only [step]
      rw [addNode_of_blank _ _ _ (by exact hb)]
      exact ⟨List.Sublist.refl _, le_refl _⟩
    · refine Or.inr (Or.inr ?_)
      simp only [step]
      rw [addNode_of_nonblank _ _ _ (by exact hb)]
      simp [EditorState.nodeIds, setNewNodeName]
  | connect source target =>
    refine Or.inr (Or.inl ?_)
    simp only [step, onConnect]
    split
    · exact ⟨List.Sublist.refl _, le_refl _⟩
    · exact ⟨List.Sublist.refl _, le_refl _⟩
  | deleteSelected =>
    refine Or.inr (Or.inl ⟨?_, le_refl _⟩)
    exact List.Sublist.map _ (List.filter_sublist _)
  | deleteEdge edgeId => exact Or.inr (Or.inl ⟨List.Sublist.refl _, le_refl _⟩)
  | applyLayout =>
    refine Or.inr (Or.inl ⟨?_, le_refl _⟩)
    have : (step addEdgeImpl s .applyLayout).nodeIds = s.nodeIds :=
      map_id_mapIdx s.nodes _ (fun _ _ => rfl)
    rw [this]
  | clearAll => exact Or.inl ⟨rfl, rfl⟩
  | selectNode id selected =>
    refine Or.inr (Or.inl ⟨?_, le_refl _⟩)
    have : (step addEdgeImpl s (.selectNode id selected)).nodeIds = s.nodeIds := by
      simp only [step, selectNode, EditorState.nodeIds, List.map_map]
      apply List.map_congr_left
      intro n _
      simp only [Function.comp]
      split <;> rfl
    rw [this]
  | selectEdge id selected => exact Or.inr (Or.inl ⟨List.Sublist.refl _, le_refl _⟩)

theorem nodeIdsFresh_step (addEdgeImpl : Connection → List Edge → List Edge) (s : EditorState)
    (op : Op) (h : NodeIdsFresh s) : NodeIdsFresh (step addEdgeImpl s op) := by
  rcases step_nodeIds addEdgeImpl s op with ⟨h1, _⟩ | ⟨h1, h2⟩ | ⟨h1, h2⟩
  · rw [NodeIdsFresh, h1]
    exact ⟨List.nodup_nil, fun x hx => by cases hx⟩
  · refine ⟨h.1.sublist h1, fun x hx => ?_⟩
    obtain ⟨k, hk, hx1⟩ := h.2 x (h1.subset hx)
    exact ⟨k, lt_of_lt_of_le hk h2, hx1⟩
  · rw [NodeIdsFresh, h1, h2]
    constructor
    · rw [List.nodup_append]
      refine ⟨h.1, List.nodup_singleton _, ?_⟩
      intro x hx hx1
      rw [List.mem_singleton] at hx1
      obtain ⟨k, hk, hx2⟩ := h.2 x hx
      have := nodeIdString_injective (hx2.symm.trans hx1)
      omega
    · intro x hx
      rcases List.mem_append.1 hx with hx | hx
      · obtain ⟨k, hk, hx1⟩ := h.2 x hx
        exact ⟨k, by omega, hx1⟩
      · exact ⟨s.nodeId, by omega, List.mem_singleton.1 hx⟩

theorem nodeIdsFresh_run (addEdgeImpl : Connection → List Edge → List Edge) :
    ∀ (ops : List Op) (s : EditorState), NodeIdsFresh s → NodeIdsFresh (run addEdgeImpl s ops) := by
  intro ops
  induction ops with
  | nil => intro s h; exact h
  | cons op ops ih =>
    intro s h
    exact ih _ (nodeIdsFresh_step addEdgeImpl s op h)

theorem absent_id_run (addEdgeImpl : Connection → List Edge → List Edge) :
    ∀ (ops : List Op) (s : EditorState), (∀ op ∈ ops, op ≠ Op.clearAll) →
      ∀ k, k < s.nodeId → "node-" ++ toString k ∉ s.nodeIds →
        "node-" ++ toString k ∉ (run addEdgeImpl s ops).nodeIds := by
  intro ops
  induction ops with
  | nil => intro s _ k _ h; exact h
  | cons op ops ih =>
    intro s hops k hk habs
    have hrest : ∀ op1 ∈ ops, op1 ≠ Op.clearAll := fun op1 h => hops op1 (List.mem_cons_of_mem _ h)
    rcases step_nodeIds addEdgeImpl s op with ⟨_, h1⟩ | ⟨h1, h2⟩ | ⟨h1, h2⟩
    · exact absurd h1 (hops op (List.mem_cons_self _ _))
    · exact ih _ hrest k (lt_of_lt_of_le hk h2) (fun h => habs (h1.subset h))
    · refine ih _ hrest k (by omega) ?_
      rw [h1, List.mem_append, List.mem_singleton]
      rintro (h | h)
      · exact habs h
      · have := nodeIdString_injective h
        omega

/-- C10 (amended): in every editor state reachable from the initial state by
`addNode`, connect, `deleteSelected`, `deleteEdge`, `applyLayout`, `clearAll` and
selection toggles, no two nodes share an id and every node id is `node-<k>` with
`k` below the id counter; `addNode` with a non-blank label appends a node with id
`node-<counter>` and increments the counter; and an id below the counter that no
node has is given to no node by any further operations other than `clearAll`. -/
theorem node_ids_unique (addEdgeImpl : Connection → List Edge → List Edge) (ops : List Op) :
    (run addEdgeImpl EditorState.initial ops).nodeIds.Nodup ∧
    (∀ x ∈ (run addEdgeImpl EditorState.initial ops).nodeIds,
      ∃ k, k < (run addEdgeImpl EditorState.initial ops).nodeId ∧ x = "node-" ++ toString k) ∧
    (∀ (label : String) (rx ry : ℚ), trim label ≠ "" →
      (step addEdgeImpl (run addEdgeImpl EditorState.initial ops) (.addNode label rx ry)).nodeIds
        = (run addEdgeImpl EditorState.initial ops).nodeIds ++
          ["node-" ++ toString (run addEdgeImpl EditorState.initial ops).nodeId] ∧
      (step addEdgeImpl (run addEdgeImpl EditorState.initial ops) (.addNode label rx ry)).nodeId
        = (run addEdgeImpl EditorState.initial ops).nodeId + 1) ∧
    (∀ more : List Op, (∀ op ∈ more, op ≠ Op.clearAll) →
      ∀ k, k < (run addEdgeImpl EditorState.initial ops).nodeId →
        "node-" ++ toString k ∉ (run addEdgeImpl EditorState.initial ops).nodeIds →
        "node-" ++ toString k ∉
          (run addEdgeImpl (run addEdgeImpl EditorState.initial ops) more).nodeIds) := by
  have hinit : NodeIdsFresh EditorState.initial :=
    ⟨List.nodup_nil, fun x hx => by cases hx⟩
  have h := nodeIdsFresh_run addEdgeImpl ops EditorState.initial hinit
  refine ⟨h.1, h.2, ?_, fun more hmore k hk habs => absent_id_run addEdgeImpl more _ hmore k hk habs⟩
  intro label rx ry hl
  simp only [step]
  rw [addNode_of_nonblank _ _ _ (by exact hl)]
  simp [EditorState.nodeIds, setNewNodeName]

/-- C10, witness: after adding two nodes and deleting the first, a further
`addNode` issues `node-3`, and the id `node-1` is not reissued. -/
theorem node_ids_unique_witness :
    ((step addEdge
        (run addEdge EditorState.initial
          [.addNode "a" 0 0, .addNode "b" 0 0, .selectNode "node-1" true, .deleteSelected])
        (.addNode "c" 0 0)).nodeIds
      = (run addEdge EditorState.initial
          [.addNode "a" 0 0, .addNode "b" 0 0, .selectNode "node-1" true,
            .deleteSelected]).nodeIds ++
        ["node-" ++ toString (run addEdge EditorState.initial
          [.addNode "a" 0 0, .addNode "b" 0 0, .selectNode "node-1" true,
            .deleteSelected]).nodeId] ∧
      (step addEdge
        (run addEdge EditorState.initial
          [.addNode "a" 0 0, .addNode "b" 0 0, .selectNode "node-1" true, .deleteSelected])
        (.addNode "c" 0 0)).nodeId
      = (run addEdge EditorState.initial
          [.addNode "a" 0 0, .addNode "b" 0 0, .selectNode "node-1" true,
            .deleteSelected]).nodeId + 1) ∧
    "node-" ++ toString 1 ∉
      (run addEdge
        (run addEdge EditorState.initial
          [.addNode "a" 0 0, .addNode "b" 0 0, .selectNode "node-1" true, .deleteSelected])
        [.addNode "c" 0 0]).nodeIds :=
  ⟨(node_ids_unique addEdge
      [.addNode "a" 0 0, .addNode "b" 0 0, .selectNode "node-1" true, .deleteSelected]).2.2.1
    "c" 0 0 (by decide),
   (node_ids_unique addEdge
      [.addNode "a" 0 0, .addNode "b" 0 0, .selectNode "node-1" true, .deleteSelected]).2.2.2
    [.addNode "c" 0 0] (by simp) 1 (by decide) (by decide)⟩

/-- C10, counterexample to the claim as stated: `addNode`, `clearAll`, `addNode`
gives the id `node-1` to a second node after the first node with that id was
deleted. -/
theorem node_id_reuse_counterexample :
    (run addEdge EditorState.initial [.addNode "a" 0 0]).nodes.map (fun n => (n.id, n.label))
      = [("node-1", "a")] ∧
    (run addEdge EditorState.initial [.addNode "a" 0 0, .clearAll]).nodes = [] ∧
    (run addEdge EditorState.initial
      [.addNode "a" 0 0, .clearAll, .addNode "b" 0 0]).nodes.map (fun n => (n.id, n.label))
      = [("node-1", "b")] := by
  decide

end PipelineEditor
